import Mathlib

/-!
Verification development for the search-gwas repository.

The Rust sources are shallowly embedded: strings are lists of characters,
machine integers are naturals (the claims do not depend on overflow),
f64 p-values are modelled exactly as mantissa-times-power-of-ten values
with a separate NaN marker, filesystem state is an explicit record of the
cache directory, and every fallible operation (an unwrap that can panic)
returns Except or Option.
-/

namespace SearchGwas

/-! ## String model

Rust str values are modelled as lists of characters. The helpers below
mirror the std string operations the repository uses: split, trim,
to_uppercase (ASCII range, which covers the data the code handles),
starts_with, and numeric parsing.
-/

/-- Model of Rust str: a list of characters. -/
abbrev Str := List Char

/-- ASCII whitespace test, model of char::is_whitespace on the data handled. -/
def wsChar (c : Char) : Bool := c = ' ' || c = '\t' || c = '\n' || c = '\r'

/-- Model of str::trim: strip whitespace from both ends. -/
def trimStr (s : Str) : Str := ((s.dropWhile wsChar).reverse.dropWhile wsChar).reverse

/-- ASCII uppercase of one character (model of char uppercasing on ASCII data). -/
def upChar (c : Char) : Char :=
  if 97 ≤ c.toNat ∧ c.toNat ≤ 122 then Char.ofNat (c.toNat - 32) else c

/-- ASCII lowercase of one character. -/
def lowChar (c : Char) : Char :=
  if 65 ≤ c.toNat ∧ c.toNat ≤ 90 then Char.ofNat (c.toNat + 32) else c

/-- Model of str::to_uppercase on ASCII data. -/
def toUpperStr (s : Str) : Str := s.map upChar

/-- Model of str::split(sep): splitting never yields an empty list. -/
def splitOnChar (sep : Char) (s : Str) : List Str :=
  match s with
  | [] => [[]]
  | c :: rest =>
    let r := splitOnChar sep rest
    if c = sep then [] :: r
    else
      match r with
      | [] => [[c]]
      | h :: t => (c :: h) :: t

/-- Model of split(sep).last().unwrap(): the final segment. The default is
never reached because splitOnChar never returns an empty list. -/
def lastSegD (sep : Char) (s : Str) : Str := (splitOnChar sep s).getLastD []

/-- Model of str::starts_with. -/
def strStartsWith : Str → Str → Bool
  | [], _ => true
  | _ :: _, [] => false
  | p :: ps, c :: cs => p = c && strStartsWith ps cs

/-- Decimal digit value of a character. -/
def digitVal (c : Char) : Option ℕ :=
  if 48 ≤ c.toNat ∧ c.toNat ≤ 57 then some (c.toNat - 48) else none

/-- Value of a nonempty all-digit string. -/
def digitsVal? (s : Str) : Option ℕ :=
  if s = [] then none
  else (s.mapM digitVal).map (fun ds => ds.foldl (fun a d => 10 * a + d) 0)

/-- Model of str::parse for unsigned integers: optional plus sign then
digits. The u32 range check is not modelled; no claim depends on overflow. -/
def parseNat? (s : Str) : Option ℕ :=
  match s with
  | '+' :: r => digitsVal? r
  | _ => digitsVal? s

/-! ## Exact model of f64 values

A non-NaN f64 produced by parsing a decimal literal is modelled exactly,
as the value mant / 10 ^ exp10. NaN is modelled as the value none of
Option FVal. Rounding of decimal literals to binary f64 is abstracted away:
the claims under study depend only on comparisons, which the exact values
decide the same way for the catalog data the code reads. -/

/-- Exact decimal value mant / 10 ^ exp10 standing for a non-NaN f64. -/
structure FVal where
  mant : ℤ
  exp10 : ℕ
deriving DecidableEq

/-- Model of f64 total comparison on non-NaN values, by cross multiplication. -/
def fcmp (a b : FVal) : Ordering :=
  compare (a.mant * (10 : ℤ) ^ b.exp10) (b.mant * (10 : ℤ) ^ a.exp10)

/-- Rational value of an FVal (used in proofs only). -/
def FVal.toRat (a : FVal) : ℚ := (a.mant : ℚ) / (10 : ℚ) ^ a.exp10

/-- Model of f64 partial_cmp: NaN compares as None. -/
def pcmpF64 : Option FVal → Option FVal → Option Ordering
  | some p, some q => some (fcmp p q)
  | _, _ => none

/-- Model of f64 equality: NaN is equal to nothing, numbers compare by value. -/
def fBeqOpt : Option FVal → Option FVal → Bool
  | some p, some q => fcmp p q = Ordering.eq
  | _, _ => false

/-- Sign of a possible leading sign character, and the remainder. -/
def splitSign (s : Str) : ℤ × Str :=
  match s with
  | '-' :: r => (-1, r)
  | '+' :: r => (1, r)
  | _ => (1, s)

/-- Unsigned decimal mantissa with optional fraction dot, scaled to an
integer together with its power-of-ten denominator exponent. -/
def parseMant? (s : Str) : Option (ℤ × ℕ) :=
  match splitOnChar '.' s with
  | [ip] => (digitsVal? ip).map (fun n => ((n : ℤ), 0))
  | [ip, fp] =>
    if ip = [] ∧ fp = [] then none
    else if (ip.all fun c => (digitVal c).isSome) ∧ (fp.all fun c => (digitVal c).isSome) then
      some ((((ip.foldl (fun a c => 10 * a + ((digitVal c).getD 0)) 0) * 10 ^ fp.length
        + fp.foldl (fun a c => 10 * a + ((digitVal c).getD 0)) 0 : ℕ) : ℤ), fp.length)
    else none
  | _ => none

/-- Signed decimal exponent. -/
def parseExp? (s : Str) : Option ℤ :=
  let (sg, r) := splitSign s
  (digitsVal? r).map (fun n => sg * n)

/-- Model of str::parse for finite f64 decimal literals (optional sign,
digits with optional fraction, optional exponent), producing the exact value. -/
def parseFVal? (s : Str) : Option FVal :=
  let t := s.map lowChar
  match splitOnChar 'e' t with
  | [m] => do
    let (sg, r) := splitSign m
    let (mant, k) ← parseMant? r
    some ⟨sg * mant, k⟩
  | [m, ex] => do
    let (sg, r) := splitSign m
    let (mant, k) ← parseMant? r
    let e ← parseExp? ex
    if 0 ≤ e then some ⟨sg * mant * 10 ^ e.toNat, k⟩
    else some ⟨sg * mant, k + (-e).toNat⟩
  | _ => none

/-- Model of str::parse::<f64>: a NaN literal parses successfully to NaN,
a finite decimal literal parses to its exact value. Infinity literals are
not modelled; no claim touches them. -/
def parsePVal? (s : Str) : Option (Option FVal) :=
  if s.map lowChar = "nan".data then some none
  else (parseFVal? s).map some

/-! ## Entity model: Association (src/data.rs)

The struct fields follow src/data.rs lines 8-17. traits is a Vec of u32,
p_value an f64 (Option FVal here, none standing for NaN), mapped_gene a
Vec of String, accession_id and pubmed u32 values. -/

/-- One normalized catalog record, model of data.rs struct Association. -/
structure Association where
  traits : List ℕ
  p_value : Option FVal
  mapped_gene : List Str
  accession_id : ℕ
  pubmed : ℕ
deriving DecidableEq

/-- Model of the derived PartialOrd::partial_cmp on Association: fields are
compared lexicographically in declaration order; a None from the f64
comparison (a NaN p-value reached after equal traits) makes the whole
result None. Ordering.then chains the remaining fields exactly as the
derived instance short-circuits on the first non-equal field. -/
def partialCmpAssociation (a b : Association) : Option Ordering :=
  match compare a.traits b.traits with
  | Ordering.eq =>
    (pcmpF64 a.p_value b.p_value).map fun o =>
      o.then ((compare a.mapped_gene b.mapped_gene).then
        ((compare a.accession_id b.accession_id).then (compare a.pubmed b.pubmed)))
  | o => some o

/-- Model of the comparison Vec::sort makes through Ord::cmp, which is
partial_cmp(..).unwrap() (data.rs lines 21-25): the value none models the
panic of that unwrap. leAssociation answers whether cmp would not return
Greater; on the NaN inputs where cmp panics the sort model is only used
under a no-NaN hypothesis (see the C10 theorem for the panic itself). -/
def leAssociation (a b : Association) : Bool :=
  partialCmpAssociation a b ≠ some Ordering.gt

/-- Model of the derived PartialEq on Association, with f64 value equality
(so a NaN p-value is unequal to everything, itself included). -/
def beqAssociation (a b : Association) : Bool :=
  a.traits = b.traits && fBeqOpt a.p_value b.p_value && a.mapped_gene = b.mapped_gene
    && a.accession_id = b.accession_id && a.pubmed = b.pubmed

/-- Proof-side key of an Association with a given rational p-value: the
tuple of its fields in declaration order. -/
def assocKey (a : Association) (p : ℚ) : List ℕ × ℚ × List Str × ℕ × ℕ :=
  (a.traits, p, a.mapped_gene, a.accession_id, a.pubmed)

/-- Proof-side lexicographic comparison of Association keys, built from
compareLex so that the standard comparator classes apply. -/
def assocKeyCmp : (List ℕ × ℚ × List Str × ℕ × ℕ) → (List ℕ × ℚ × List Str × ℕ × ℕ) → Ordering :=
  compareLex (compareOn fun k => k.1)
    (compareLex (compareOn fun k => k.2.1)
      (compareLex (compareOn fun k => k.2.2.1)
        (compareLex (compareOn fun k => k.2.2.2.1) (compareOn fun k => k.2.2.2.2))))

instance instTransCmpAssocKeyCmp : Batteries.TransCmp assocKeyCmp := by
  unfold assocKeyCmp
  infer_instance

/-! ## Sorting and dedup (models of Vec::sort and Vec::dedup) -/

/-- Insert into a sorted list, auxiliary to insertionSortBy. -/
def orderedInsertBy (le : α → α → Bool) (a : α) : List α → List α
  | [] => [a]
  | b :: t => if le a b then a :: b :: t else b :: orderedInsertBy le a t

/-- Model of Vec::sort: a comparison sort producing a list sorted by le.
The claims under study depend only on sortedness and on the sorted-dedup
result, which any comparison sort determines the same way. -/
def insertionSortBy (le : α → α → Bool) : List α → List α
  | [] => []
  | a :: t => orderedInsertBy le a (insertionSortBy le t)

/-- Model of Vec::dedup through List.destutter: remove consecutive elements
equal (by beq) to the last kept element. -/
def dedupAdjacent (l : List Association) : List Association :=
  l.destutter fun a b => beqAssociation a b = false

/-- Boolean order on naturals for the traits sort. -/
def natLeB (a b : ℕ) : Bool := a ≤ b

/-- Boolean order on strings for the gene-list sort. -/
def strLeB (a b : Str) : Bool := a ≤ b

/-! ## Catalog ingestion pipeline (write_gwas_file, src/files.rs 124-187)

Every unwrap that can panic is an Except.error: any such error aborts the
whole ingestion (rayon propagates a row panic to the caller). -/

/-- Lift an Option to Except, modelling unwrap: none is a panic. -/
def exceptOfOption : Option α → Except Unit α
  | some a => Except.ok a
  | none => Except.error ()

instance instDecEqExceptUnit {α : Type} [DecidableEq α] : DecidableEq (Except Unit α) :=
  fun a b =>
  match a, b with
  | Except.error x, Except.error y => isTrue (by cases x; cases y; rfl)
  | Except.ok x, Except.ok y =>
    if h : x = y then isTrue (by rw [h]) else isFalse (fun hc => h (by injection hc))
  | Except.error _, Except.ok _ => isFalse (fun hc => Except.noConfusion hc)
  | Except.ok _, Except.error _ => isFalse (fun hc => Except.noConfusion hc)

/-- Model of str::lines: split on newline, drop a final empty segment
coming from a trailing newline, strip a trailing carriage return. -/
def rustLines (s : Str) : List Str :=
  let parts := splitOnChar '\n' s
  let parts := if parts.getLast? = some [] then parts.dropLast else parts
  parts.map fun l => if l.getLast? = some '\r' then l.dropLast else l

/-- Model of get_header_position (files.rs 364-367): position of a header
name, whose absence panics. -/
def getHeaderPos (headers : List Str) (name : Str) : Option ℕ :=
  headers.findIdx? fun h => h = name

/-- Model of the per-row closure of write_gwas_file (files.rs 154-180).
The row is the raw line; di pi gi ai li are the header positions of
MAPPED_TRAIT_URI, P-VALUE, MAPPED_GENE, STUDY ACCESSION and LINK. Returns
ok none when the row is discarded (blank mapped-gene field), ok (some a)
when an Association is emitted, error on any panic (missing column index,
unparsable number). -/
def parseGwasRow (di pi gi ai li : ℕ) (line : Str) : Except Unit (Option Association) := do
  let record := splitOnChar '\t' line
  let traitsField ← exceptOfOption (record.get? di)
  let segs := (splitOnChar ',' traitsField).map fun d => lastSegD '/' d
  let traitsOpt ← segs.mapM fun d =>
    if strStartsWith "EFO_".data d then
      (exceptOfOption (parseNat? (lastSegD '_' d))).map some
    else Except.ok none
  let traits := insertionSortBy natLeB (traitsOpt.filterMap id)
  let geneField ← exceptOfOption (record.get? gi)
  if trimStr geneField = [] then return none
  let gene := insertionSortBy strLeB [toUpperStr (trimStr geneField)]
  let pField ← exceptOfOption (record.get? pi)
  let pv ← exceptOfOption (parsePVal? pField)
  let aField ← exceptOfOption (record.get? ai)
  let acc ← if aField.length < 4 then Except.error ()
    else exceptOfOption (parseNat? (aField.drop 4))
  let lField ← exceptOfOption (record.get? li)
  let pm ← exceptOfOption (parseNat? (lastSegD '/' lField))
  return some ⟨traits, pv, gene, acc, pm⟩

/-- Rows of the catalog document parsed and filtered, before the final
sort and dedup (files.rs 143-181). -/
def gwasParsedRows (file : Str) : Except Unit (List Association) := do
  let lines := rustLines file
  let header ← exceptOfOption lines.head?
  let headers := splitOnChar '\t' header
  let di ← exceptOfOption (getHeaderPos headers "MAPPED_TRAIT_URI".data)
  let pi ← exceptOfOption (getHeaderPos headers "P-VALUE".data)
  let gi ← exceptOfOption (getHeaderPos headers "MAPPED_GENE".data)
  let ai ← exceptOfOption (getHeaderPos headers "STUDY ACCESSION".data)
  let li ← exceptOfOption (getHeaderPos headers "LINK".data)
  let rows := lines.drop 1
  let perRow ← rows.mapM (parseGwasRow di pi gi ai li)
  Except.ok (perRow.filterMap id)

/-- The whole catalog processing step of write_gwas_file: parse all rows,
sort, dedup (files.rs 149-183). -/
def processGwasDoc (file : Str) : Except Unit (List Association) := do
  let assocs ← gwasParsedRows file
  Except.ok (dedupAdjacent (insertionSortBy leAssociation assocs))

/-! ## Ontology ingestion pipeline (write_efo_file, src/files.rs 189-274)

The roxmltree document tree (an external crate) is modelled by XNode:
an element node carries namespace, tag name, attributes (namespace, name,
value) and children; a text node carries only its text. The repository
code maps that tree to Efo entities; that mapping is embedded below. -/

/-- Model of a roxmltree node. -/
inductive XNode where
  | element (ns : Str) (tag : Str) (attrs : List (Str × Str × Str)) (children : List XNode)
  | text (s : Str)

/-- Model of roxmltree Node::has_tag_name((ns, name)): true only for an
element with that expanded name; a text node has no tag name. -/
def hasTagName (n : XNode) (ns tag : Str) : Bool :=
  match n with
  | XNode.element ns2 t _ _ => ns2 = ns && t = tag
  | XNode.text _ => false

/-- Model of roxmltree Node::is_text: true only for a text node. -/
def isTextNode (n : XNode) : Bool :=
  match n with
  | XNode.element _ _ _ _ => false
  | XNode.text _ => true

/-- Model of roxmltree Node::attribute((ns, name)). -/
def attrVal (n : XNode) (ns name : Str) : Option Str :=
  match n with
  | XNode.element _ _ attrs _ =>
    (attrs.find? fun a => a.1 = ns && a.2.1 = name).map fun a => a.2.2
  | XNode.text _ => none

/-- Children of a node. -/
def childNodes (n : XNode) : List XNode :=
  match n with
  | XNode.element _ _ _ cs => cs
  | XNode.text _ => []

/-- Model of roxmltree Node::text: a text node yields its own text, an
element yields the text of its first child when that child is a text node. -/
def nodeText (n : XNode) : Option Str :=
  match n with
  | XNode.text s => some s
  | XNode.element _ _ _ cs =>
    match cs with
    | XNode.text s :: _ => some s
    | _ => none

/-- Modelled from the spec: the namespace constants of src/consts.rs, a file
absent from src/. The values are the standard OWL, RDF, RDFS and oboInOwl
namespace URIs named by the spec vocabulary; only their identity matters. -/
def OWL_NS : Str := "http://www.w3.org/2002/07/owl#".data

/-- Modelled from the spec: RDF namespace constant of the absent consts.rs. -/
def RDF_NS : Str := "http://www.w3.org/1999/02/22-rdf-syntax-ns#".data

/-- Modelled from the spec: RDFS namespace constant of the absent consts.rs. -/
def RDFS_NS : Str := "http://www.w3.org/2000/01/rdf-schema#".data

/-- Modelled from the spec: oboInOwl namespace constant of the absent consts.rs. -/
def OBO_IN_OWL_NS : Str := "http://www.geneontology.org/formats/oboInOwl#".data

/-- One ontology entry, model of data.rs struct Efo (lines 49-58). -/
structure Efo where
  id : ℕ
  label : Str
  parent : Option ℕ
  children : Finset ℕ
  synonyms : Finset Str
deriving DecidableEq

/-- Model of the per-node closure of write_efo_file (files.rs 212-262):
maps one document node to an optional keyed Efo; an error models a panic
of one of the unwraps inside the closure. -/
def processEfoNode (node : XNode) : Except Unit (Option (ℕ × Efo)) := do
  if hasTagName node OWL_NS "Class".data then
    match attrVal node RDF_NS "about".data with
    | none => return none
    | some idUri =>
      match (childNodes node).find? (fun c => hasTagName c RDFS_NS "label".data) with
      | none => return none
      | some labelNode =>
        let idSeg := lastSegD '/' idUri
        if strStartsWith "EFO_".data idSeg then
          let id ← exceptOfOption (parseNat? (lastSegD '_' idSeg))
          let ltext ← exceptOfOption (nodeText labelNode)
          let label := toUpperStr (trimStr ltext)
          let parent ← match (childNodes node).find? (fun c => hasTagName c RDFS_NS "subClassOf".data) with
            | none => Except.ok none
            | some sc => do
              let res ← exceptOfOption (attrVal sc RDF_NS "resource".data)
              let seg := lastSegD '/' res
              if strStartsWith "EFO_".data seg then
                (exceptOfOption (parseNat? (lastSegD '_' seg))).map some
              else Except.ok (some 0)
          let synNodes := (childNodes node).filter fun c =>
            hasTagName c OBO_IN_OWL_NS "hasExactSynonym".data && isTextNode c
          let syns ← synNodes.mapM fun c =>
            (exceptOfOption (nodeText c)).map fun t => toUpperStr (trimStr t)
          return some (id, ⟨id, label, parent, ∅, syns.toFinset⟩)
        else return none
  else return none

/-- Insert-or-replace into an association list keyed by id, model of
HashMap insertion while collecting (later entries win). -/
def insertReplace (m : List (ℕ × Efo)) (k : ℕ) (v : Efo) : List (ℕ × Efo) :=
  if (m.lookup k).isSome then m.map (fun e => if e.1 = k then (k, v) else e)
  else m ++ [(k, v)]

/-- Model of collect::<HashMap<_, _>>() over the keyed Efo pairs. -/
def buildMap (l : List (ℕ × Efo)) : List (ℕ × Efo) :=
  l.foldl (fun m e => insertReplace m e.1 e.2) []

/-- Add a child id to the entry keyed p, model of
efos.get_mut(&subclass) followed by children.insert(id); when no entry has
key p this is a no-op, exactly as the if-let silently skips. -/
def updateChildren (m : List (ℕ × Efo)) (p : ℕ) (childId : ℕ) : List (ℕ × Efo) :=
  m.map fun e => if e.1 = p then (e.1, { e.2 with children := insert childId e.2.children }) else e

/-- One iteration of the backfill loop: a keyed node with a parent adds its
own id to the children of the parent entry; a root node changes nothing. -/
def backfillStep (acc : List (ℕ × Efo)) (e : ℕ × Efo) : List (ℕ × Efo) :=
  match e.2.parent with
  | some p => updateChildren acc p e.1
  | none => acc

/-- Model of the backfill loop of write_efo_file (files.rs 264-270): iterate
over a clone of the collected map and add each keyed node to the children
of its parent entry when that parent key is present. -/
def backfill (m : List (ℕ × Efo)) : List (ℕ × Efo) :=
  m.foldl backfillStep m

/-- The whole ontology processing of write_efo_file (files.rs 208-271):
per-node extraction, map collection, backfill, then the values. -/
def processEfoDoc (nodes : List XNode) : Except Unit (List Efo) := do
  let pairs ← nodes.mapM processEfoNode
  let m := buildMap (pairs.filterMap id)
  Except.ok ((backfill m).map Prod.snd)

/-! ## Significance threshold and query filter (src/consts.rs, data.rs, query.rs) -/

/-- Modelled from the spec: the fixed significance threshold THRESHOLD of
src/consts.rs, a file absent from src/; the spec fixes its value at 5e-8. -/
def THRESHOLD : FVal := ⟨5, 8⟩

/-- Model of Association::is_significant (data.rs 38-41): p_value < THRESHOLD
under f64 comparison, on which NaN is below nothing. -/
def Association.isSignificant (a : Association) : Bool :=
  match a.p_value with
  | some p => fcmp p THRESHOLD = Ordering.lt
  | none => false

/-- Model of Association::is_associated_with (data.rs 43-46). -/
def Association.isAssociatedWith (a : Association) (efo : ℕ) : Bool :=
  a.traits.contains efo

/-- Model of the filter step of query (query.rs 34-37): keep associations
that are significant and associated with the trait id. -/
def querySignificant (efoId : ℕ) (associations : List Association) : List Association :=
  associations.filter fun r => r.isSignificant && r.isAssociatedWith efoId

/-- Model of find_efo (query.rs 19-24): exact label match first, then the
first node whose synonym set contains the query. -/
def findEfo (efos : List Efo) (label : Str) : Option Efo :=
  match efos.find? (fun i => i.label = label) with
  | none => efos.find? fun i => label ∈ i.synonyms
  | efo => efo

/-! ## Secondary dataset (AzAssociations, src/files.rs 379-474)

Each optional compressed file is modelled as an optional list of
deserialization results (an error models a malformed record). -/

/-- Modelled from the spec: the AzAssociation record struct, declared in
src/data.rs but absent from the given data.rs text: trait string, single
gene string, p-value. -/
structure AzAssociation where
  trait_ : Str
  mapped_gene : Str
  p_value : Option FVal
deriving DecidableEq

/-- Model of the ParallelIterator::drive_unindexed implementation of
AzAssociations (files.rs 445-474), the path query_az actually uses: the
if / else-if chain evaluates only the FIRST file that is present, and
drops malformed records (filter_map(Result::ok)). -/
def azCollectPar (b p q : Option (List (Except Unit AzAssociation))) : List AzAssociation :=
  match b with
  | some l => l.filterMap fun r => r.toOption
  | none =>
    match p with
    | some l => l.filterMap fun r => r.toOption
    | none =>
      match q with
      | some l => l.filterMap fun r => r.toOption
      | none => []

/-- Model of the sequential Iterator implementation of AzAssociations
(files.rs 422-443): drain binary, then proteomics, then quantitative,
panicking (none) on a malformed record (the unwrap). -/
def azCollectSeq (b p q : Option (List (Except Unit AzAssociation))) :
    Option (List AzAssociation) := do
  let drain : Option (List (Except Unit AzAssociation)) → Option (List AzAssociation) :=
    fun f => match f with
    | some l => l.mapM fun r => r.toOption
    | none => some []
  let lb ← drain b
  let lp ← drain p
  let lq ← drain q
  some (lb ++ lp ++ lq)

/-- The record collection query_az evaluates (query.rs 171-179): the
parallel collect over AzAssociations. -/
def queryAzRecords (b p q : Option (List (Except Unit AzAssociation))) : List AzAssociation :=
  azCollectPar b p q

/-! ## Archival codec (spec 4.4; files.rs write_archive / load_associations)

Modelled from the spec: the codec itself is the external rkyv crate, not
code under src/. Following the spec contract it is modelled as a
length-prefixed serializer of entity collections into a flat token stream,
with a reader-style decoder; the round-trip and the exact preservation of
element order and count are proved against this model. -/

/-- Metadata record, model of data.rs struct Metadata (lines 74-77), the
timestamp being an abstract integer instant. -/
structure Metadata where
  last_updated : ℤ
deriving DecidableEq

/-- One token of the archival stream. -/
inductive Tok where
  | tn (n : ℕ)
  | ti (i : ℤ)
  | ts (s : Str)
deriving DecidableEq

/-- Encode a natural-number list with a count marker. -/
def encNatList (l : List ℕ) : List Tok := Tok.tn l.length :: l.map Tok.tn

/-- Encode a string list with a count marker. -/
def encStrList (l : List Str) : List Tok := Tok.tn l.length :: l.map Tok.ts

/-- Encode an optional f64 value with a presence tag. -/
def encPVal : Option FVal → List Tok
  | none => [Tok.tn 0]
  | some f => [Tok.tn 1, Tok.ti f.mant, Tok.tn f.exp10]

/-- Encode an optional natural with a presence tag. -/
def encOptNat : Option ℕ → List Tok
  | none => [Tok.tn 0]
  | some n => [Tok.tn 1, Tok.tn n]

/-- Encode one Association. -/
def encodeAssociation (a : Association) : List Tok :=
  encNatList a.traits ++ encPVal a.p_value ++ encStrList a.mapped_gene
    ++ [Tok.tn a.accession_id, Tok.tn a.pubmed]

/-- Encode one Efo; the finite child and synonym sets are serialized in
their canonical sorted order. -/
def encodeEfo (e : Efo) : List Tok :=
  Tok.tn e.id :: Tok.ts e.label :: (encOptNat e.parent
    ++ encNatList (e.children.sort (· ≤ ·)) ++ encStrList (e.synonyms.sort (· ≤ ·)))

/-- Encode a whole Association collection with its count. -/
def encodeAssociationList (l : List Association) : List Tok :=
  Tok.tn l.length :: l.foldr (fun a acc => encodeAssociation a ++ acc) []

/-- Encode a whole Efo collection with its count. -/
def encodeEfoList (l : List Efo) : List Tok :=
  Tok.tn l.length :: l.foldr (fun e acc => encodeEfo e ++ acc) []

/-- Encode the Metadata record. -/
def encodeMetadata (m : Metadata) : List Tok := [Tok.ti m.last_updated]

/-- Read one natural token. -/
def readNat : List Tok → Option (ℕ × List Tok)
  | Tok.tn n :: r => some (n, r)
  | _ => none

/-- Read one integer token. -/
def readInt : List Tok → Option (ℤ × List Tok)
  | Tok.ti i :: r => some (i, r)
  | _ => none

/-- Read one string token. -/
def readStr : List Tok → Option (Str × List Tok)
  | Tok.ts s :: r => some (s, r)
  | _ => none

/-- Read a counted list of naturals. -/
def readNats : ℕ → List Tok → Option (List ℕ × List Tok)
  | 0, r => some ([], r)
  | k + 1, r => do
    let (n, r1) ← readNat r
    let (l, r2) ← readNats k r1
    some (n :: l, r2)

/-- Read a counted list of strings. -/
def readStrs : ℕ → List Tok → Option (List Str × List Tok)
  | 0, r => some ([], r)
  | k + 1, r => do
    let (s, r1) ← readStr r
    let (l, r2) ← readStrs k r1
    some (s :: l, r2)

/-- Read an optional f64 value. -/
def readPVal (r : List Tok) : Option (Option FVal × List Tok) := do
  let (tag, r1) ← readNat r
  match tag with
  | 0 => some (none, r1)
  | 1 => do
    let (m, r2) ← readInt r1
    let (e, r3) ← readNat r2
    some (some ⟨m, e⟩, r3)
  | _ => none

/-- Read an optional natural. -/
def readOptNat (r : List Tok) : Option (Option ℕ × List Tok) := do
  let (tag, r1) ← readNat r
  match tag with
  | 0 => some (none, r1)
  | 1 => do
    let (n, r2) ← readNat r1
    some (some n, r2)
  | _ => none

/-- Read one Association. -/
def readAssociation (r : List Tok) : Option (Association × List Tok) := do
  let (k, r1) ← readNat r
  let (traits, r2) ← readNats k r1
  let (pv, r3) ← readPVal r2
  let (gk, r4) ← readNat r3
  let (genes, r5) ← readStrs gk r4
  let (acc, r6) ← readNat r5
  let (pm, r7) ← readNat r6
  some (⟨traits, pv, genes, acc, pm⟩, r7)

/-- Read one Efo. -/
def readEfo (r : List Tok) : Option (Efo × List Tok) := do
  let (id, r1) ← readNat r
  let (label, r2) ← readStr r1
  let (parent, r3) ← readOptNat r2
  let (ck, r4) ← readNat r3
  let (childIds, r5) ← readNats ck r4
  let (sk, r6) ← readNat r5
  let (syns, r7) ← readStrs sk r6
  some (⟨id, label, parent, childIds.toFinset, syns.toFinset⟩, r7)

/-- Read a counted list of Associations. -/
def readAssociations : ℕ → List Tok → Option (List Association × List Tok)
  | 0, r => some ([], r)
  | k + 1, r => do
    let (a, r1) ← readAssociation r
    let (l, r2) ← readAssociations k r1
    some (a :: l, r2)

/-- Read a counted list of Efos. -/
def readEfos : ℕ → List Tok → Option (List Efo × List Tok)
  | 0, r => some ([], r)
  | k + 1, r => do
    let (e, r1) ← readEfo r
    let (l, r2) ← readEfos k r1
    some (e :: l, r2)

/-- Decode a whole Association collection. -/
def decodeAssociationList (toks : List Tok) : Option (List Association) := do
  let (k, r) ← readNat toks
  let (l, r2) ← readAssociations k r
  if r2 = [] then some l else none

/-- Decode a whole Efo collection. -/
def decodeEfoList (toks : List Tok) : Option (List Efo) := do
  let (k, r) ← readNat toks
  let (l, r2) ← readEfos k r
  if r2 = [] then some l else none

/-- Decode the Metadata record. -/
def decodeMetadata (toks : List Tok) : Option Metadata :=
  match toks with
  | [Tok.ti i] => some ⟨i⟩
  | _ => none

/-! ## Refresh run model (check_for_updates, src/files.rs 276-323)

The cache directory is an explicit record of its five files; each file
carries its content and a modification time (an abstract integer instant,
86400 of which make the one day of the freshness window). A run returns
the final directory state, whether it panicked, and the trace of network
and commit events, in order. Temporary files live in the system temp
directory, outside the cache, so a WriteFile commit touches the cache
only at the atomic rename. -/

/-- The five cache files. -/
inductive FileId where
  | metadataId | assocArchiveId | assocTsvId | efoArchiveId | efoOwlId
deriving DecidableEq

/-- Observable events of a refresh run: the two HEAD freshness requests,
the two GET downloads, and the commit steps. -/
inductive Ev where
  | headGwas | headEfo | getGwas | getEfo
  | tempCreate (f : FileId)
  | renameCommit (f : FileId)
  | tempRemove (f : FileId)
  | plainWrite (f : FileId)
deriving DecidableEq

/-- Content of a cache file. corruptC stands for the truncated remains of
an interrupted plain write. -/
inductive Content where
  | metaC (lastUpdated : ℤ)
  | rawGwasC (doc : Str)
  | rawEfoC (doc : Str)
  | assocArchiveC (l : List Association)
  | efoArchiveC (l : List Efo)
  | corruptC
deriving DecidableEq

/-- A cache file: its content and its modification time. -/
structure FileData where
  content : Content
  mtime : ℤ
deriving DecidableEq

/-- The cache directory. -/
structure CacheFS where
  metadataF : Option FileData
  assocArchiveF : Option FileData
  assocTsvF : Option FileData
  efoArchiveF : Option FileData
  efoOwlF : Option FileData
deriving DecidableEq

/-- Read one slot of the cache directory. -/
def CacheFS.get (fs : CacheFS) : FileId → Option FileData
  | FileId.metadataId => fs.metadataF
  | FileId.assocArchiveId => fs.assocArchiveF
  | FileId.assocTsvId => fs.assocTsvF
  | FileId.efoArchiveId => fs.efoArchiveF
  | FileId.efoOwlId => fs.efoOwlF

/-- Write one slot of the cache directory. -/
def CacheFS.set (fs : CacheFS) (fid : FileId) (fd : FileData) : CacheFS :=
  match fid with
  | FileId.metadataId => { fs with metadataF := some fd }
  | FileId.assocArchiveId => { fs with assocArchiveF := some fd }
  | FileId.assocTsvId => { fs with assocTsvF := some fd }
  | FileId.efoArchiveId => { fs with efoArchiveF := some fd }
  | FileId.efoOwlId => { fs with efoOwlF := some fd }

/-- Whether a run finished or stopped at a panic (every unwrap failure in
the refresh is a panic that aborts the whole operation). -/
inductive Outcome where
  | success | panicked
deriving DecidableEq

/-- The environment of one refresh run: the clock, the remote responses
(none is a network failure), the external XML parse of a fetched ontology
document, injected failures of the temp-file writes and of the final plain
metadata write, and the modification times the filesystem assigns. -/
structure Env where
  now : ℤ
  nowAtWrite : ℤ
  headGwasDate : Option ℤ
  headEfoDate : Option ℤ
  getGwasDoc : Option Str
  getEfoDoc : Option Str
  parseXml : Str → Option (List XNode)
  tmpWriteOk : FileId → Bool
  metaWriteOk : Bool
  commitTime : FileId → ℤ

/-- One WriteFile use (files.rs 72-122): create a uniquely named temp file
in the system temp directory, write the content, atomically rename it onto
the target; on an error before the rename the Drop handler removes the
temp file, and the cache is untouched. -/
def writeFileStep (env : Env) (fid : FileId) (c : Content) (fs : CacheFS) :
    CacheFS × Outcome × List Ev :=
  if env.tmpWriteOk fid then
    (fs.set fid ⟨c, env.commitTime fid⟩, Outcome.success, [Ev.tempCreate fid, Ev.renameCommit fid])
  else
    (fs, Outcome.panicked, [Ev.tempCreate fid, Ev.tempRemove fid])

/-- Processing tail of write_gwas_file (files.rs 142-186): process the
document text and commit the archive; a processing panic aborts with the
cache as it stands. -/
def gwasProcessCommit (env : Env) (fs : CacheFS) (doc : Str) (evs : List Ev) :
    CacheFS × Outcome × List Ev :=
  match processGwasDoc doc with
  | Except.error _ => (fs, Outcome.panicked, evs)
  | Except.ok l =>
    match writeFileStep env FileId.assocArchiveId (Content.assocArchiveC l) fs with
    | (fs1, o, t) => (fs1, o, evs ++ t)

/-- Model of write_gwas_file (files.rs 124-187). With local set the raw
document is read from the cache (a missing or undecodable file panics);
otherwise it is downloaded and committed before processing. -/
def writeGwasFile (env : Env) (fs : CacheFS) (localF : Bool) : CacheFS × Outcome × List Ev :=
  if localF then
    match fs.get FileId.assocTsvId with
    | some ⟨Content.rawGwasC doc, _⟩ => gwasProcessCommit env fs doc []
    | _ => (fs, Outcome.panicked, [])
  else
    match env.getGwasDoc with
    | none => (fs, Outcome.panicked, [Ev.getGwas])
    | some doc =>
      match writeFileStep env FileId.assocTsvId (Content.rawGwasC doc) fs with
      | (fs1, Outcome.success, t) => gwasProcessCommit env fs1 doc (Ev.getGwas :: t)
      | (fs1, o, t) => (fs1, o, Ev.getGwas :: t)

/-- Processing tail of write_efo_file (files.rs 207-273): parse the markup
(external parser), map the nodes, backfill, commit the archive. -/
def efoProcessCommit (env : Env) (fs : CacheFS) (doc : Str) (evs : List Ev) :
    CacheFS × Outcome × List Ev :=
  match env.parseXml doc with
  | none => (fs, Outcome.panicked, evs)
  | some nodes =>
    match processEfoDoc nodes with
    | Except.error _ => (fs, Outcome.panicked, evs)
    | Except.ok l =>
      match writeFileStep env FileId.efoArchiveId (Content.efoArchiveC l) fs with
      | (fs1, o, t) => (fs1, o, evs ++ t)

/-- Model of write_efo_file (files.rs 189-274). -/
def writeEfoFile (env : Env) (fs : CacheFS) (localF : Bool) : CacheFS × Outcome × List Ev :=
  if localF then
    match fs.get FileId.efoOwlId with
    | some ⟨Content.rawEfoC doc, _⟩ => efoProcessCommit env fs doc []
    | _ => (fs, Outcome.panicked, [])
  else
    match env.getEfoDoc with
    | none => (fs, Outcome.panicked, [Ev.getEfo])
    | some doc =>
      match writeFileStep env FileId.efoOwlId (Content.rawEfoC doc) fs with
      | (fs1, Outcome.success, t) => efoProcessCommit env fs1 doc (Ev.getEfo :: t)
      | (fs1, o, t) => (fs1, o, Ev.getEfo :: t)

/-- The catalog stage of check_for_updates (files.rs 294-307): with a
processed archive present, a HEAD freshness request is always issued and
the archive is rebuilt when the remote date is newer (the file mtime
compared at day granularity) or force is exactly 2; with no archive the
ingestion is unconditional and ignores the local flag. -/
def gwasStage (env : Env) (fs : CacheFS) (localF : Bool) (force : ℕ) :
    CacheFS × Outcome × List Ev :=
  match fs.get FileId.assocArchiveId with
  | some fd =>
    match env.headGwasDate with
    | none => (fs, Outcome.panicked, [Ev.headGwas])
    | some latest =>
      if Int.ediv fd.mtime 86400 < latest ∨ force = 2 then
        match writeGwasFile env fs localF with
        | (fs1, o, t) => (fs1, o, Ev.headGwas :: t)
      else (fs, Outcome.success, [Ev.headGwas])
  | none => writeGwasFile env fs false

/-- The ontology stage of check_for_updates (files.rs 308-316), comparing
the full modification instant against the Last-Modified date. -/
def efoStage (env : Env) (fs : CacheFS) (localF : Bool) (force : ℕ) :
    CacheFS × Outcome × List Ev :=
  match fs.get FileId.efoArchiveId with
  | some fd =>
    match env.headEfoDate with
    | none => (fs, Outcome.panicked, [Ev.headEfo])
    | some latest =>
      if fd.mtime < latest ∨ force = 2 then
        match writeEfoFile env fs localF with
        | (fs1, o, t) => (fs1, o, Ev.headEfo :: t)
      else (fs, Outcome.success, [Ev.headEfo])
  | none => writeEfoFile env fs false

/-- The final metadata write of check_for_updates (files.rs 318-322): a
plain std::fs::write, not a WriteFile commit. The failure path models the
truncate-then-write nature of a plain write: an interrupted write leaves a
corrupt metadata file. -/
def metaStage (env : Env) (fs : CacheFS) : CacheFS × Outcome × List Ev :=
  if env.metaWriteOk then
    (fs.set FileId.metadataId ⟨Content.metaC env.nowAtWrite, env.commitTime FileId.metadataId⟩,
      Outcome.success, [Ev.plainWrite FileId.metadataId])
  else
    (fs.set FileId.metadataId ⟨Content.corruptC, env.commitTime FileId.metadataId⟩,
      Outcome.panicked, [Ev.plainWrite FileId.metadataId])

/-- The body of check_for_updates after the freshness short-circuit:
catalog stage, then ontology stage, then the metadata write, each panic
aborting the rest. -/
def refreshBody (env : Env) (fs : CacheFS) (localF : Bool) (force : ℕ) :
    CacheFS × Outcome × List Ev :=
  match gwasStage env fs localF force with
  | (fs1, Outcome.panicked, t1) => (fs1, Outcome.panicked, t1)
  | (fs1, Outcome.success, t1) =>
    match efoStage env fs1 localF force with
    | (fs2, Outcome.panicked, t2) => (fs2, Outcome.panicked, t1 ++ t2)
    | (fs2, Outcome.success, t2) =>
      match metaStage env fs2 with
      | (fs3, o, t3) => (fs3, o, t1 ++ (t2 ++ t3))

/-- Model of check_for_updates (files.rs 276-323). Reading the metadata
file: absent means proceed; a decodable record within one day of now with
force 0 returns immediately with no events; an undecodable record models
the unchecked decode going wrong, a panic. -/
def checkForUpdates (env : Env) (fs : CacheFS) (localF : Bool) (force : ℕ) :
    CacheFS × Outcome × List Ev :=
  match fs.get FileId.metadataId with
  | some ⟨Content.metaC t, _⟩ =>
    if env.now - t < 86400 ∧ force = 0 then (fs, Outcome.success, [])
    else refreshBody env fs localF force
  | some ⟨_, _⟩ => (fs, Outcome.panicked, [])
  | none => refreshBody env fs localF force

/-- Model of the update command (cli.rs 65-74): the reprocess flag becomes
both the local flag and a forced force level of 2. -/
def updateRun (env : Env) (fs : CacheFS) (force : ℕ) (reprocess : Bool) :
    CacheFS × Outcome × List Ev :=
  checkForUpdates env fs reprocess (if reprocess then 2 else force)

/-- Trace discipline of the commit machinery: every temp-file creation is
immediately resolved, by the atomic rename or by the removal of the temp
file, and neither ever targets the metadata file, whose only write event
is a plain write. -/
def commitPolicyOk : List Ev → Bool
  | [] => true
  | Ev.tempCreate f :: rest =>
    match rest with
    | Ev.renameCommit g :: rest2 => f = g && f ≠ FileId.metadataId && commitPolicyOk rest2
    | Ev.tempRemove g :: rest2 => f = g && f ≠ FileId.metadataId && commitPolicyOk rest2
    | _ => false
  | Ev.renameCommit _ :: _ => false
  | Ev.plainWrite f :: rest => f = FileId.metadataId && commitPolicyOk rest
  | _ :: rest => commitPolicyOk rest

/-! ## Concrete run inputs used by the counterexamples and witnesses -/

/-- A catalog document whose header row lacks the required columns, so
processing panics after the raw document has been committed. -/
def docBadHeader : Str := "X".data

/-- A catalog document holding only a valid header row and no data rows. -/
def docHeaderOnly : Str :=
  "MAPPED_TRAIT_URI\tP-VALUE\tMAPPED_GENE\tSTUDY ACCESSION\tLINK".data

/-- Environment of a failing refresh: the remote catalog is newer, the
downloaded document is malformed, all filesystem writes succeed. -/
def envFail : Env where
  now := 0
  nowAtWrite := 0
  headGwasDate := some 1000
  headEfoDate := some 0
  getGwasDoc := some docBadHeader
  getEfoDoc := none
  parseXml := fun _ => none
  tmpWriteOk := fun _ => true
  metaWriteOk := true
  commitTime := fun _ => 5

/-- Cache before the failing refresh: no metadata, a committed catalog
archive and a committed raw catalog document. -/
def fsFail : CacheFS where
  metadataF := none
  assocArchiveF := some ⟨Content.assocArchiveC [], 0⟩
  assocTsvF := some ⟨Content.rawGwasC "old".data, 0⟩
  efoArchiveF := none
  efoOwlF := none

/-- Environment of a successful refresh in which both archives are already
fresh, so the run only issues the two HEAD requests and rewrites metadata. -/
def envFresh : Env where
  now := 0
  nowAtWrite := 7
  headGwasDate := some 5
  headEfoDate := some 5
  getGwasDoc := none
  getEfoDoc := none
  parseXml := fun _ => none
  tmpWriteOk := fun _ => true
  metaWriteOk := true
  commitTime := fun _ => 9

/-- Cache with both processed archives newer than the remote signals. -/
def fsFresh : CacheFS where
  metadataF := none
  assocArchiveF := some ⟨Content.assocArchiveC [], 86400 * 200⟩
  assocTsvF := none
  efoArchiveF := some ⟨Content.efoArchiveC [], 86400 * 200⟩
  efoOwlF := none

/-- Environment of a reprocess run: both raw documents are already on disk,
remote dates are newer, the ontology document parses to an empty node list. -/
def envLocal : Env where
  now := 0
  nowAtWrite := 1
  headGwasDate := some 99
  headEfoDate := some 99
  getGwasDoc := none
  getEfoDoc := none
  parseXml := fun _ => some []
  tmpWriteOk := fun _ => true
  metaWriteOk := true
  commitTime := fun _ => 3

/-- Cache holding both processed archives and both raw documents. -/
def fsLocal : CacheFS where
  metadataF := none
  assocArchiveF := some ⟨Content.assocArchiveC [], 0⟩
  assocTsvF := some ⟨Content.rawGwasC docHeaderOnly, 0⟩
  efoArchiveF := some ⟨Content.efoArchiveC [], 0⟩
  efoOwlF := some ⟨Content.rawEfoC "owl".data, 0⟩

/-! ## Concrete pipeline inputs used by the counterexamples and witnesses -/

/-- One secondary-dataset record of the binary file. -/
def azB : AzAssociation := ⟨"asthma".data, "GENE1".data, some ⟨1, 3⟩⟩

/-- One secondary-dataset record of the proteomics file. -/
def azP : AzAssociation := ⟨"asthma".data, "GENE2".data, some ⟨1, 3⟩⟩

/-- An ontology class node carrying one exact-synonym element child with
text, together with its label child. -/
def exSynNode : XNode :=
  XNode.element OWL_NS "Class".data
    [(RDF_NS, "about".data, "http://www.ebi.ac.uk/efo/EFO_7".data)]
    [XNode.element RDFS_NS "label".data [] [XNode.text "Alzheimer disease".data],
     XNode.element OBO_IN_OWL_NS "hasExactSynonym".data [] [XNode.text "ALZ".data]]

/-- A valid catalog data row (trait EFO_10, p 1e-10, gene BRCA1). -/
def rowLine1 : Str :=
  "http://www.ebi.ac.uk/efo/EFO_10\t1e-10\tbrca1\tGCST000001\thttp://x/100".data

/-- A valid catalog data row (trait EFO_20, p 1e-3, gene TP53). -/
def rowLine2 : Str :=
  "http://www.ebi.ac.uk/efo/EFO_20\t1e-3\tTP53\tGCST000002\thttp://x/200".data

/-- A catalog data row whose mapped-gene field is blank. -/
def blankLine : Str :=
  "http://www.ebi.ac.uk/efo/EFO_10\t1e-10\t \tGCST000003\thttp://x/300".data

/-- The catalog document holding the header and the two valid rows. -/
def docTwoRows : Str :=
  docHeaderOnly ++ '\n' :: rowLine1 ++ '\n' :: rowLine2

/-- The Association emitted by the first row. -/
def aRow1 : Association := ⟨[10], some ⟨1, 10⟩, ["BRCA1".data], 1, 100⟩

/-- The Association emitted by the second row. -/
def aRow2 : Association := ⟨[20], some ⟨1, 3⟩, ["TP53".data], 2, 200⟩

/-- A two-node ontology map: node 1 is a child of node 2. -/
def mChild : Efo := ⟨1, "CHILD".data, some 2, ∅, ∅⟩

/-- The parent node of the two-node ontology map. -/
def mParent : Efo := ⟨2, "PARENT".data, none, ∅, ∅⟩

/-- The two-node keyed ontology map before the backfill pass. -/
def mTwo : List (ℕ × Efo) := [(1, mChild), (2, mParent)]

/-- Two NaN associations agreeing on every other field. -/
def aNanL : Association := ⟨[10], none, ["BRCA1".data], 1, 100⟩

/-- Second NaN association of the panic pair. -/
def aNanR : Association := ⟨[10], none, ["BRCA1".data], 1, 100⟩

/-- An association exactly at the significance threshold. -/
def aAtThreshold : Association := ⟨[10], some ⟨5, 8⟩, ["BRCA1".data], 1, 100⟩

/-- An association just below the significance threshold. -/
def aBelowThreshold : Association := ⟨[10], some ⟨49, 9⟩, ["BRCA1".data], 1, 100⟩

/-! # Theorems

General machinery first: the insertion-sort and dedup lemmas, the
comparator lemmas, the codec round-trip lemmas and the run-model frame
lemmas; the claim theorems follow. -/

theorem mem_orderedInsertBy (le : α → α → Bool) (a : α) (l : List α) (x : α) :
    x ∈ orderedInsertBy le a l ↔ x = a ∨ x ∈ l := by
  induction l with
  | nil => simp [orderedInsertBy]
  | cons b t ih =>
    by_cases h : le a b = true
    · simp only [orderedInsertBy, if_pos h, List.mem_cons]
    · simp only [orderedInsertBy, if_neg h, List.mem_cons, ih]
      tauto

theorem pairwise_orderedInsertBy (le : α → α → Bool) (P : α → Prop)
    (htot : ∀ x y, P x → P y → le x y = true ∨ le y x = true)
    (htrans : ∀ x y z, P x → P y → P z → le x y = true → le y z = true → le x z = true)
    (a : α) (l : List α) (ha : P a) (hl : ∀ x ∈ l, P x)
    (h : l.Pairwise fun u v => le u v = true) :
    (orderedInsertBy le a l).Pairwise fun u v => le u v = true := by
  induction l with
  | nil => simp [orderedInsertBy]
  | cons b t ih =>
    rcases List.pairwise_cons.mp h with ⟨hb, ht⟩
    by_cases hab : le a b = true
    · rw [orderedInsertBy, if_pos hab]
      refine List.pairwise_cons.mpr ⟨?_, h⟩
      intro x hx
      rcases List.mem_cons.mp hx with rfl | hx
      · exact hab
      · exact htrans a b x ha (hl b (by simp)) (hl x (by simp [hx])) hab (hb x hx)
    · rw [orderedInsertBy, if_neg hab]
      refine List.pairwise_cons.mpr ⟨?_, ih (fun x hx => hl x (by simp [hx])) ht⟩
      intro x hx
      rcases (mem_orderedInsertBy le a t x).mp hx with rfl | hx
      · rcases htot x b ha (hl b (by simp)) with h1 | h1
        · exact absurd h1 hab
        · exact h1
      · exact hb x hx

theorem mem_insertionSortBy (le : α → α → Bool) (l : List α) (x : α) :
    x ∈ insertionSortBy le l ↔ x ∈ l := by
  induction l with
  | nil => simp [insertionSortBy]
  | cons a t ih =>
    simp only [insertionSortBy, mem_orderedInsertBy, ih, List.mem_cons]

theorem pairwise_insertionSortBy (le : α → α → Bool) (P : α → Prop)
    (htot : ∀ x y, P x → P y → le x y = true ∨ le y x = true)
    (htrans : ∀ x y z, P x → P y → P z → le x y = true → le y z = true → le x z = true)
    (l : List α) (hl : ∀ x ∈ l, P x) :
    (insertionSortBy le l).Pairwise fun u v => le u v = true := by
  induction l with
  | nil => simp [insertionSortBy]
  | cons a t ih =>
    refine pairwise_orderedInsertBy le P htot htrans a (insertionSortBy le t)
      (hl a (by simp)) ?_ (ih fun x hx => hl x (by simp [hx]))
    intro x hx
    exact hl x (by simp [(mem_insertionSortBy le t x).mp hx])

theorem nodup_of_pairwise_chain (le beq : α → α → Bool) (P : α → Prop)
    (hba : ∀ x y, P x → P y → le x y = true → le y x = true → beq x y = true)
    (hrefl : ∀ x, P x → beq x x = true)
    (l : List α) (hl : ∀ x ∈ l, P x)
    (hs : l.Pairwise fun u v => le u v = true)
    (hc : l.Chain' fun u v => beq u v = false) : l.Nodup := by
  induction l with
  | nil => simp
  | cons x t ih =>
    rcases List.pairwise_cons.mp hs with ⟨hx, ht⟩
    refine List.nodup_cons.mpr ⟨?_, ih (fun y hy => hl y (by simp [hy])) ht hc.tail⟩
    intro hmem
    cases t with
    | nil => simp at hmem
    | cons y t2 =>
      have hbxy : beq x y = false := (List.chain'_cons.mp hc).1
      rcases List.mem_cons.mp hmem with rfl | hmem2
      · rw [hrefl x (hl x (by simp))] at hbxy
        simp at hbxy
      · have hxy : le x y = true := hx y (by simp)
        have hyx : le y x := (List.pairwise_cons.mp ht).1 x hmem2
        rw [hba x y (hl x (by simp)) (hl y (by simp)) hxy hyx] at hbxy
        simp at hbxy

theorem then_eq_eq (o1 o2 : Ordering) :
    o1.then o2 = Ordering.eq ↔ o1 = Ordering.eq ∧ o2 = Ordering.eq := by
  cases o1 <;> simp [Ordering.then]

theorem fcmp_eq_compare_toRat (a b : FVal) : fcmp a b = compare a.toRat b.toRat := by
  have key : ∀ x y : FVal,
      x.toRat < y.toRat ↔ x.mant * (10 : ℤ) ^ y.exp10 < y.mant * (10 : ℤ) ^ x.exp10 := by
    intro x y
    unfold FVal.toRat
    rw [div_lt_div_iff₀ (by positivity) (by positivity)]
    exact_mod_cast Iff.rfl
  have keyEq : ∀ x y : FVal,
      x.toRat = y.toRat ↔ x.mant * (10 : ℤ) ^ y.exp10 = y.mant * (10 : ℤ) ^ x.exp10 := by
    intro x y
    unfold FVal.toRat
    rw [div_eq_div_iff (by positivity) (by positivity)]
    exact_mod_cast Iff.rfl
  unfold fcmp
  rcases lt_trichotomy a.toRat b.toRat with h | h | h
  · rw [compare_lt_iff_lt.mpr ((key a b).mp h), compare_lt_iff_lt.mpr h]
  · rw [compare_eq_iff_eq.mpr ((keyEq a b).mp h), compare_eq_iff_eq.mpr h]
  · rw [compare_gt_iff_gt.mpr ((key b a).mp h), compare_gt_iff_gt.mpr h]

theorem partialCmp_eq_keyCmp (a b : Association) (pa pb : FVal)
    (ha : a.p_value = some pa) (hb : b.p_value = some pb) :
    partialCmpAssociation a b = some (assocKeyCmp (assocKey a pa.toRat) (assocKey b pb.toRat)) := by
  unfold partialCmpAssociation pcmpF64 assocKeyCmp assocKey
  rw [ha, hb]
  simp only [compareLex, compareOn, fcmp_eq_compare_toRat]
  cases h : compare a.traits b.traits <;> simp [Ordering.then]

theorem leAssociation_iff (a b : Association) :
    leAssociation a b = true ↔ partialCmpAssociation a b ≠ some Ordering.gt := by
  unfold leAssociation
  exact decide_eq_true_iff

theorem leAssociation_total (a b : Association)
    (ha : (a.p_value).isSome = true) (hb : (b.p_value).isSome = true) :
    leAssociation a b = true ∨ leAssociation b a = true := by
  rcases Option.isSome_iff_exists.mp ha with ⟨pa, hpa⟩
  rcases Option.isSome_iff_exists.mp hb with ⟨pb, hpb⟩
  rw [leAssociation_iff, leAssociation_iff, partialCmp_eq_keyCmp a b pa pb hpa hpb,
    partialCmp_eq_keyCmp b a pb pa hpb hpa]
  by_cases h : assocKeyCmp (assocKey a pa.toRat) (assocKey b pb.toRat) = Ordering.gt
  · right
    have h2 : assocKeyCmp (assocKey b pb.toRat) (assocKey a pa.toRat) = Ordering.lt :=
      Batteries.OrientedCmp.cmp_eq_gt.mp h
    simp [h2]
  · left
    simp [h]

theorem leAssociation_trans (a b c : Association)
    (ha : (a.p_value).isSome = true) (hb : (b.p_value).isSome = true)
    (hc : (c.p_value).isSome = true)
    (h1 : leAssociation a b = true) (h2 : leAssociation b c = true) :
    leAssociation a c = true := by
  rcases Option.isSome_iff_exists.mp ha with ⟨pa, hpa⟩
  rcases Option.isSome_iff_exists.mp hb with ⟨pb, hpb⟩
  rcases Option.isSome_iff_exists.mp hc with ⟨pc, hpc⟩
  rw [leAssociation_iff, partialCmp_eq_keyCmp a b pa pb hpa hpb] at h1
  rw [leAssociation_iff, partialCmp_eq_keyCmp b c pb pc hpb hpc] at h2
  rw [leAssociation_iff, partialCmp_eq_keyCmp a c pa pc hpa hpc]
  have g1 : assocKeyCmp (assocKey a pa.toRat) (assocKey b pb.toRat) ≠ Ordering.gt := by
    intro hg
    exact h1 (by rw [hg])
  have g2 : assocKeyCmp (assocKey b pb.toRat) (assocKey c pc.toRat) ≠ Ordering.gt := by
    intro hg
    exact h2 (by rw [hg])
  have g3 : assocKeyCmp (assocKey a pa.toRat) (assocKey c pc.toRat) ≠ Ordering.gt :=
    Batteries.TransCmp.le_trans g1 g2
  intro hg
  exact g3 (by injection hg)

theorem pcEq_iff_beq (a b : Association) :
    partialCmpAssociation a b = some Ordering.eq ↔ beqAssociation a b = true := by
  unfold partialCmpAssociation beqAssociation pcmpF64 fBeqOpt
  cases hpa : a.p_value with
  | none =>
    cases ht : compare a.traits b.traits <;> simp
  | some pa =>
    cases hpb : b.p_value with
    | none =>
      cases ht : compare a.traits b.traits <;> simp
    | some pb =>
      cases ht : compare a.traits b.traits with
      | eq =>
        have htr : a.traits = b.traits := compare_eq_iff_eq.mp ht
        simp [then_eq_eq, htr, compare_eq_iff_eq, and_assoc]
      | lt =>
        have htr : a.traits ≠ b.traits := by
          intro he
          rw [compare_eq_iff_eq.mpr he] at ht
          exact Ordering.noConfusion ht
        simp [htr]
      | gt =>
        have htr : a.traits ≠ b.traits := by
          intro he
          rw [compare_eq_iff_eq.mpr he] at ht
          exact Ordering.noConfusion ht
        simp [htr]

theorem leAssociation_antisymm (a b : Association)
    (ha : (a.p_value).isSome = true) (hb : (b.p_value).isSome = true)
    (h1 : leAssociation a b = true) (h2 : leAssociation b a = true) :
    beqAssociation a b = true := by
  rcases Option.isSome_iff_exists.mp ha with ⟨pa, hpa⟩
  rcases Option.isSome_iff_exists.mp hb with ⟨pb, hpb⟩
  rw [leAssociation_iff, partialCmp_eq_keyCmp a b pa pb hpa hpb] at h1
  rw [leAssociation_iff, partialCmp_eq_keyCmp b a pb pa hpb hpa] at h2
  refine (pcEq_iff_beq a b).mp ?_
  rw [partialCmp_eq_keyCmp a b pa pb hpa hpb]
  cases h : assocKeyCmp (assocKey a pa.toRat) (assocKey b pb.toRat) with
  | eq => rfl
  | lt =>
    have : assocKeyCmp (assocKey b pb.toRat) (assocKey a pa.toRat) = Ordering.gt :=
      Batteries.OrientedCmp.cmp_eq_gt.mpr h
    exact absurd (by rw [this]) h2
  | gt => exact absurd (by rw [h]) h1

theorem beqAssociation_refl (a : Association) (ha : (a.p_value).isSome = true) :
    beqAssociation a a = true := by
  rcases Option.isSome_iff_exists.mp ha with ⟨pa, hpa⟩
  refine (pcEq_iff_beq a a).mp ?_
  rw [partialCmp_eq_keyCmp a a pa pa hpa hpa]
  have hrefl : assocKeyCmp (assocKey a pa.toRat) (assocKey a pa.toRat) = Ordering.eq :=
    Batteries.OrientedCmp.cmp_refl
  rw [hrefl]

theorem sorted_insertionSortBy_nat (l : List ℕ) :
    List.Sorted (· ≤ ·) (insertionSortBy natLeB l) := by
  have h := pairwise_insertionSortBy natLeB (fun _ => True)
    (fun x y _ _ => by
      unfold natLeB
      rcases le_total x y with h | h
      · exact Or.inl (by simpa using h)
      · exact Or.inr (by simpa using h))
    (fun x y z _ _ _ hxy hyz => by
      unfold natLeB at *
      simp only [decide_eq_true_eq] at *
      omega)
    l (fun _ _ => trivial)
  exact h.imp fun hb => by simpa [natLeB] using hb

theorem sorted_insertionSortBy_str (l : List Str) :
    List.Sorted (· ≤ ·) (insertionSortBy strLeB l) := by
  have h := pairwise_insertionSortBy strLeB (fun _ => True)
    (fun x y _ _ => by
      unfold strLeB
      rcases le_total x y with h | h
      · exact Or.inl (by simpa using h)
      · exact Or.inr (by simpa using h))
    (fun x y z _ _ _ hxy hyz => by
      unfold strLeB at *
      simp only [decide_eq_true_eq] at *
      exact le_trans hxy hyz)
    l (fun _ _ => trivial)
  exact h.imp fun hb => by simpa [strLeB] using hb

theorem parseGwasRow_ok_some (di pi gi ai li : ℕ) (line : Str) (a : Association)
    (hok : parseGwasRow di pi gi ai li line = Except.ok (some a)) :
    List.Sorted (· ≤ ·) a.traits ∧ List.Sorted (· ≤ ·) a.mapped_gene := by
  unfold parseGwasRow at hok
  simp only [bind, Except.bind, pure, Except.pure, exceptOfOption] at hok
  repeat' split at hok
  all_goals try exact Except.noConfusion hok
  all_goals try (injection hok with h1; exact Option.noConfusion h1)
  · injection hok with h1
    injection h1 with h2
    subst h2
    exact ⟨sorted_insertionSortBy_nat _, sorted_insertionSortBy_str _⟩

theorem parseGwasRow_blank (di pi gi ai li : ℕ) (line : Str) (g : Str)
    (hg : (splitOnChar '\t' line).get? gi = some g) (hblank : trimStr g = [])
    (a : Association) : parseGwasRow di pi gi ai li line ≠ Except.ok (some a) := by
  intro hok
  unfold parseGwasRow at hok
  simp only [bind, Except.bind, pure, Except.pure, exceptOfOption, hg, hblank] at hok
  repeat' split at hok
  all_goals try exact Except.noConfusion hok
  all_goals try (injection hok with h1; exact Option.noConfusion h1)
  all_goals simp_all

theorem processGwasDoc_eq (doc : Str) (assocs : List Association)
    (h : gwasParsedRows doc = Except.ok assocs) :
    processGwasDoc doc = Except.ok (dedupAdjacent (insertionSortBy leAssociation assocs)) := by
  unfold processGwasDoc
  simp only [bind, Except.bind, h]

theorem sortedDedup_pairwise_nodup (assocs : List Association)
    (hP : ∀ a ∈ assocs, (a.p_value).isSome = true) :
    (dedupAdjacent (insertionSortBy leAssociation assocs)).Pairwise
      (fun u v => leAssociation u v = true) ∧
    (dedupAdjacent (insertionSortBy leAssociation assocs)).Nodup := by
  have hPs : ∀ a ∈ insertionSortBy leAssociation assocs, (a.p_value).isSome = true := by
    intro a hasort
    exact hP a ((mem_insertionSortBy _ _ _).mp hasort)
  have hpair : (insertionSortBy leAssociation assocs).Pairwise
      (fun u v => leAssociation u v = true) :=
    pairwise_insertionSortBy leAssociation (fun a => (a.p_value).isSome = true)
      leAssociation_total leAssociation_trans assocs hP
  have hsub : (dedupAdjacent (insertionSortBy leAssociation assocs)).Sublist
      (insertionSortBy leAssociation assocs) := List.destutter_sublist _ _
  have hpair2 := hpair.sublist hsub
  have hchain : (dedupAdjacent (insertionSortBy leAssociation assocs)).Chain'
      (fun u v => beqAssociation u v = false) := List.destutter_is_chain' _ _
  have hPd : ∀ a ∈ dedupAdjacent (insertionSortBy leAssociation assocs),
      (a.p_value).isSome = true := fun a hx => hPs a (hsub.subset hx)
  exact ⟨hpair2, nodup_of_pairwise_chain leAssociation beqAssociation
    (fun a => (a.p_value).isSome = true) leAssociation_antisymm beqAssociation_refl
    _ hPd hpair2 hchain⟩

theorem keys_updateChildren (m : List (ℕ × Efo)) (p c : ℕ) :
    (updateChildren m p c).map Prod.fst = m.map Prod.fst := by
  induction m with
  | nil => rfl
  | cons e t ih =>
    unfold updateChildren at *
    by_cases h : e.1 = p <;> simp [h, ih]

theorem lookupConsEq (k e1 : ℕ) (x : Efo) (t : List (ℕ × Efo)) :
    List.lookup k ((e1, x) :: t) = if k = e1 then some x else List.lookup k t := by
  simp only [List.lookup]
  by_cases h : k = e1
  · simp [h]
  · simp [h, beq_false_of_ne h]

theorem lookup_updateChildren (m : List (ℕ × Efo)) (p c k : ℕ) :
    (updateChildren m p c).lookup k =
      if k = p then (m.lookup k).map (fun e => { e with children := insert c e.children })
      else m.lookup k := by
  induction m with
  | nil => simp [updateChildren]
  | cons e t ih =>
    obtain ⟨e1, ev⟩ := e
    have hstep : updateChildren ((e1, ev) :: t) p c
        = (e1, if e1 = p then { ev with children := insert c ev.children } else ev)
            :: updateChildren t p c := by
      unfold updateChildren
      simp only [List.map_cons]
      congr 1
      by_cases h : e1 = p <;> simp [h]
    rw [hstep, lookupConsEq, lookupConsEq]
    by_cases hk : k = e1
    · subst hk
      by_cases hp : k = p <;> simp [hp]
    · simp [hk, ih]

theorem keys_backfillStep (acc : List (ℕ × Efo)) (e : ℕ × Efo) :
    (backfillStep acc e).map Prod.fst = acc.map Prod.fst := by
  unfold backfillStep
  cases e.2.parent with
  | none => rfl
  | some p => exact keys_updateChildren acc p e.1

theorem keys_foldl_backfillStep (rest : List (ℕ × Efo)) :
    ∀ acc, (rest.foldl backfillStep acc).map Prod.fst = acc.map Prod.fst := by
  induction rest with
  | nil => intro acc; rfl
  | cons e t ih =>
    intro acc
    rw [List.foldl_cons, ih, keys_backfillStep]

theorem lookup_foldl_backfillStep_mono (rest : List (ℕ × Efo)) :
    ∀ (acc : List (ℕ × Efo)) (p : ℕ) (pe : Efo), acc.lookup p = some pe →
      ∃ pe2, (rest.foldl backfillStep acc).lookup p = some pe2 ∧ pe.children ⊆ pe2.children := by
  induction rest with
  | nil =>
    intro acc p pe h
    exact ⟨pe, h, Finset.Subset.refl _⟩
  | cons e t ih =>
    intro acc p pe h
    rw [List.foldl_cons]
    cases hq : e.2.parent with
    | none =>
      have hs : backfillStep acc e = acc := by unfold backfillStep; rw [hq]
      rw [hs]
      exact ih acc p pe h
    | some q =>
      have hs : backfillStep acc e = updateChildren acc q e.1 := by unfold backfillStep; rw [hq]
      rw [hs]
      by_cases hpq : p = q
      · subst hpq
        have hl : (updateChildren acc p e.1).lookup p
            = some { pe with children := insert e.1 pe.children } := by
          rw [lookup_updateChildren]
          simp [h]
        rcases ih _ p _ hl with ⟨pe2, h2, hsub⟩
        exact ⟨pe2, h2, fun x hx => hsub (Finset.mem_insert_of_mem hx)⟩
      · have hl : (updateChildren acc q e.1).lookup p = some pe := by
          rw [lookup_updateChildren]
          simp [hpq, h]
        exact ih _ p pe hl

theorem backfill_foldl_mem (rest : List (ℕ × Efo)) :
    ∀ (acc : List (ℕ × Efo)) (id : ℕ) (efo : Efo) (p : ℕ),
      (id, efo) ∈ rest → efo.parent = some p → (acc.lookup p).isSome = true →
      ∀ pe, (rest.foldl backfillStep acc).lookup p = some pe → id ∈ pe.children := by
  induction rest with
  | nil =>
    intro acc id efo p hmem
    simp at hmem
  | cons e t ih =>
    intro acc id efo p hmem hpar hk pe hpe
    rw [List.foldl_cons] at hpe
    rcases List.mem_cons.mp hmem with heq | hmem2
    · subst heq
      have hstep : backfillStep acc (id, efo) = updateChildren acc p id := by
        unfold backfillStep
        rw [hpar]
      rcases Option.isSome_iff_exists.mp hk with ⟨pe0, hpe0⟩
      have hl : (updateChildren acc p id).lookup p
          = some { pe0 with children := insert id pe0.children } := by
        rw [lookup_updateChildren]
        simp [hpe0]
      rw [hstep] at hpe
      rcases lookup_foldl_backfillStep_mono t _ p _ hl with ⟨pe2, h2, hsub⟩
      rw [h2] at hpe
      injection hpe with hpe
      subst hpe
      exact hsub (Finset.mem_insert_self id _)
    · have hk2 : ((backfillStep acc e).lookup p).isSome = true := by
        unfold backfillStep
        cases hq : e.2.parent with
        | none => exact hk
        | some q =>
          rw [lookup_updateChildren]
          by_cases hpq : p = q
          · subst hpq
            simpa using hk
          · simpa [hpq] using hk
      exact ih _ id efo p hmem2 hpar hk2 pe hpe

theorem lookup_isSome_iff_keys (m : List (ℕ × Efo)) (k : ℕ) :
    (m.lookup k).isSome = true ↔ k ∈ m.map Prod.fst := by
  induction m with
  | nil => simp
  | cons e t ih =>
    obtain ⟨e1, ev⟩ := e
    rw [lookupConsEq]
    by_cases h : k = e1 <;> simp [h, ih]

theorem readNats_enc (l : List ℕ) (rest : List Tok) :
    readNats l.length (l.map Tok.tn ++ rest) = some (l, rest) := by
  induction l with
  | nil => rfl
  | cons n t ih => simp [readNats, readNat, ih, Option.bind]

theorem readStrs_enc (l : List Str) (rest : List Tok) :
    readStrs l.length (l.map Tok.ts ++ rest) = some (l, rest) := by
  induction l with
  | nil => rfl
  | cons s t ih => simp [readStrs, readStr, ih, Option.bind]

theorem readPVal_enc (pv : Option FVal) (rest : List Tok) :
    readPVal (encPVal pv ++ rest) = some (pv, rest) := by
  cases pv with
  | none => rfl
  | some f => rfl

theorem readOptNat_enc (o : Option ℕ) (rest : List Tok) :
    readOptNat (encOptNat o ++ rest) = some (o, rest) := by
  cases o with
  | none => rfl
  | some n => rfl

theorem readAssociation_enc (a : Association) (rest : List Tok) :
    readAssociation (encodeAssociation a ++ rest) = some (a, rest) := by
  obtain ⟨tr, pv, mg, acc, pm⟩ := a
  simp [encodeAssociation, encNatList, encStrList, readAssociation, readNat,
    List.append_assoc, readNats_enc, readStrs_enc, readPVal_enc, Option.bind]

theorem readEfo_enc (e : Efo) (rest : List Tok) :
    readEfo (encodeEfo e ++ rest) = some (e, rest) := by
  obtain ⟨id, label, parent, children, syns⟩ := e
  simp [encodeEfo, encNatList, encStrList, readEfo, readNat, readStr,
    List.append_assoc, readNats_enc, readStrs_enc, readOptNat_enc, Option.bind,
    Finset.sort_toFinset, -Finset.length_sort]

theorem readAssociations_enc (l : List Association) (rest : List Tok) :
    readAssociations l.length
      ((l.foldr (fun a acc => encodeAssociation a ++ acc) []) ++ rest) = some (l, rest) := by
  induction l with
  | nil => rfl
  | cons a t ih =>
    simp [readAssociations, List.append_assoc, readAssociation_enc, ih, Option.bind]

theorem readEfos_enc (l : List Efo) (rest : List Tok) :
    readEfos l.length
      ((l.foldr (fun e acc => encodeEfo e ++ acc) []) ++ rest) = some (l, rest) := by
  induction l with
  | nil => rfl
  | cons e t ih =>
    simp [readEfos, List.append_assoc, readEfo_enc, ih, Option.bind]

theorem decodeAssociationList_enc (l : List Association) :
    decodeAssociationList (encodeAssociationList l) = some l := by
  unfold decodeAssociationList encodeAssociationList
  have h := readAssociations_enc l []
  rw [List.append_nil] at h
  simp [readNat, h, Option.bind]

theorem decodeEfoList_enc (l : List Efo) :
    decodeEfoList (encodeEfoList l) = some l := by
  unfold decodeEfoList encodeEfoList
  have h := readEfos_enc l []
  rw [List.append_nil] at h
  simp [readNat, h, Option.bind]

theorem get_set (fs : CacheFS) (fid fid2 : FileId) (fd : FileData) :
    (fs.set fid fd).get fid2 = if fid2 = fid then some fd else fs.get fid2 := by
  cases fid <;> cases fid2 <;> simp [CacheFS.set, CacheFS.get]

theorem writeFileStep_fst_get (env : Env) (fid : FileId) (c : Content) (fs : CacheFS)
    (fid2 : FileId) :
    ((writeFileStep env fid c fs).1).get fid2 =
      if fid2 = fid ∧ env.tmpWriteOk fid = true then some ⟨c, env.commitTime fid⟩
      else fs.get fid2 := by
  unfold writeFileStep
  by_cases h : env.tmpWriteOk fid = true
  · rw [if_pos h]
    rw [get_set]
    by_cases h2 : fid2 = fid <;> simp [h2, h]
  · rw [if_neg h]
    simp [h]

theorem gwasProcessCommit_spec (env : Env) (fs : CacheFS) (doc : Str) (evs : List Ev) :
    ((gwasProcessCommit env fs doc evs).1).get FileId.metadataId = fs.get FileId.metadataId ∧
    ((gwasProcessCommit env fs doc evs).1).get FileId.efoArchiveId = fs.get FileId.efoArchiveId ∧
    ((gwasProcessCommit env fs doc evs).1).get FileId.efoOwlId = fs.get FileId.efoOwlId ∧
    ((gwasProcessCommit env fs doc evs).1).get FileId.assocTsvId = fs.get FileId.assocTsvId ∧
    (((gwasProcessCommit env fs doc evs).1).get FileId.assocArchiveId
        = fs.get FileId.assocArchiveId ∨
      ∃ l t, ((gwasProcessCommit env fs doc evs).1).get FileId.assocArchiveId
        = some ⟨Content.assocArchiveC l, t⟩) := by
  unfold gwasProcessCommit
  cases h : processGwasDoc doc with
  | error e => simp
  | ok l =>
    simp only [writeFileStep_fst_get]
    refine ⟨by simp, by simp, by simp, by simp, ?_⟩
    by_cases hw : env.tmpWriteOk FileId.assocArchiveId = true
    · right
      exact ⟨l, env.commitTime FileId.assocArchiveId, by simp [hw]⟩
    · left
      simp [hw]

theorem writeGwasFile_spec (env : Env) (fs : CacheFS) (localF : Bool) :
    ((writeGwasFile env fs localF).1).get FileId.metadataId = fs.get FileId.metadataId ∧
    ((writeGwasFile env fs localF).1).get FileId.efoArchiveId = fs.get FileId.efoArchiveId ∧
    ((writeGwasFile env fs localF).1).get FileId.efoOwlId = fs.get FileId.efoOwlId ∧
    (((writeGwasFile env fs localF).1).get FileId.assocTsvId = fs.get FileId.assocTsvId ∨
      ∃ d t, ((writeGwasFile env fs localF).1).get FileId.assocTsvId
        = some ⟨Content.rawGwasC d, t⟩) ∧
    (((writeGwasFile env fs localF).1).get FileId.assocArchiveId
        = fs.get FileId.assocArchiveId ∨
      ∃ l t, ((writeGwasFile env fs localF).1).get FileId.assocArchiveId
        = some ⟨Content.assocArchiveC l, t⟩) := by
  unfold writeGwasFile
  by_cases hl : localF = true
  · rw [if_pos hl]
    split
    · rcases gwasProcessCommit_spec env fs _ [] with ⟨h1, h2, h3, h4, h5⟩
      exact ⟨h1, h2, h3, Or.inl h4, h5⟩
    · exact ⟨rfl, rfl, rfl, Or.inl rfl, Or.inl rfl⟩
  · rw [if_neg hl]
    cases hd : env.getGwasDoc with
    | none => exact ⟨rfl, rfl, rfl, Or.inl rfl, Or.inl rfl⟩
    | some doc =>
      by_cases hw : env.tmpWriteOk FileId.assocTsvId = true
      · have hstep : writeFileStep env FileId.assocTsvId (Content.rawGwasC doc) fs
            = (fs.set FileId.assocTsvId ⟨Content.rawGwasC doc, env.commitTime FileId.assocTsvId⟩,
               Outcome.success, [Ev.tempCreate FileId.assocTsvId, Ev.renameCommit FileId.assocTsvId]) := by
          unfold writeFileStep
          rw [if_pos hw]
        dsimp only
        rw [hstep]
        dsimp only
        rcases gwasProcessCommit_spec env
          (fs.set FileId.assocTsvId ⟨Content.rawGwasC doc, env.commitTime FileId.assocTsvId⟩) doc
          (Ev.getGwas :: [Ev.tempCreate FileId.assocTsvId, Ev.renameCommit FileId.assocTsvId])
          with ⟨h1, h2, h3, h4, h5⟩
        refine ⟨?_, ?_, ?_, ?_, ?_⟩
        · rw [h1, get_set]
          simp
        · rw [h2, get_set]
          simp
        · rw [h3, get_set]
          simp
        · right
          refine ⟨doc, env.commitTime FileId.assocTsvId, ?_⟩
          rw [h4, get_set]
          simp
        · rcases h5 with h5 | h5
          · rw [h5, get_set]
            simp
          · exact Or.inr h5
      · have hstep : writeFileStep env FileId.assocTsvId (Content.rawGwasC doc) fs
            = (fs, Outcome.panicked,
               [Ev.tempCreate FileId.assocTsvId, Ev.tempRemove FileId.assocTsvId]) := by
          unfold writeFileStep
          rw [if_neg hw]
        dsimp only
        rw [hstep]
        exact ⟨rfl, rfl, rfl, Or.inl rfl, Or.inl rfl⟩

theorem efoProcessCommit_spec (env : Env) (fs : CacheFS) (doc : Str) (evs : List Ev) :
    ((efoProcessCommit env fs doc evs).1).get FileId.metadataId = fs.get FileId.metadataId ∧
    ((efoProcessCommit env fs doc evs).1).get FileId.assocArchiveId
      = fs.get FileId.assocArchiveId ∧
    ((efoProcessCommit env fs doc evs).1).get FileId.assocTsvId = fs.get FileId.assocTsvId ∧
    ((efoProcessCommit env fs doc evs).1).get FileId.efoOwlId = fs.get FileId.efoOwlId ∧
    (((efoProcessCommit env fs doc evs).1).get FileId.efoArchiveId
        = fs.get FileId.efoArchiveId ∨
      ∃ l t, ((efoProcessCommit env fs doc evs).1).get FileId.efoArchiveId
        = some ⟨Content.efoArchiveC l, t⟩) := by
  unfold efoProcessCommit
  cases hx : env.parseXml doc with
  | none => simp
  | some nodes =>
    dsimp only
    cases h : processEfoDoc nodes with
    | error e => simp
    | ok l =>
      simp only [writeFileStep_fst_get]
      refine ⟨by simp, by simp, by simp, by simp, ?_⟩
      by_cases hw : env.tmpWriteOk FileId.efoArchiveId = true
      · right
        exact ⟨l, env.commitTime FileId.efoArchiveId, by simp [hw]⟩
      · left
        simp [hw]

theorem writeEfoFile_spec (env : Env) (fs : CacheFS) (localF : Bool) :
    ((writeEfoFile env fs localF).1).get FileId.metadataId = fs.get FileId.metadataId ∧
    ((writeEfoFile env fs localF).1).get FileId.assocArchiveId = fs.get FileId.assocArchiveId ∧
    ((writeEfoFile env fs localF).1).get FileId.assocTsvId = fs.get FileId.assocTsvId ∧
    (((writeEfoFile env fs localF).1).get FileId.efoOwlId = fs.get FileId.efoOwlId ∨
      ∃ d t, ((writeEfoFile env fs localF).1).get FileId.efoOwlId
        = some ⟨Content.rawEfoC d, t⟩) ∧
    (((writeEfoFile env fs localF).1).get FileId.efoArchiveId = fs.get FileId.efoArchiveId ∨
      ∃ l t, ((writeEfoFile env fs localF).1).get FileId.efoArchiveId
        = some ⟨Content.efoArchiveC l, t⟩) := by
  unfold writeEfoFile
  by_cases hl : localF = true
  · rw [if_pos hl]
    split
    · rcases efoProcessCommit_spec env fs _ [] with ⟨h1, h2, h3, h4, h5⟩
      exact ⟨h1, h2, h3, Or.inl h4, h5⟩
    · exact ⟨rfl, rfl, rfl, Or.inl rfl, Or.inl rfl⟩
  · rw [if_neg hl]
    cases hd : env.getEfoDoc with
    | none => exact ⟨rfl, rfl, rfl, Or.inl rfl, Or.inl rfl⟩
    | some doc =>
      by_cases hw : env.tmpWriteOk FileId.efoOwlId = true
      · have hstep : writeFileStep env FileId.efoOwlId (Content.rawEfoC doc) fs
            = (fs.set FileId.efoOwlId ⟨Content.rawEfoC doc, env.commitTime FileId.efoOwlId⟩,
               Outcome.success, [Ev.tempCreate FileId.efoOwlId, Ev.renameCommit FileId.efoOwlId]) := by
          unfold writeFileStep
          rw [if_pos hw]
        dsimp only
        rw [hstep]
        dsimp only
        rcases efoProcessCommit_spec env
          (fs.set FileId.efoOwlId ⟨Content.rawEfoC doc, env.commitTime FileId.efoOwlId⟩) doc
          (Ev.getEfo :: [Ev.tempCreate FileId.efoOwlId, Ev.renameCommit FileId.efoOwlId])
          with ⟨h1, h2, h3, h4, h5⟩
        refine ⟨?_, ?_, ?_, ?_, ?_⟩
        · rw [h1, get_set]
          simp
        · rw [h2, get_set]
          simp
        · rw [h3, get_set]
          simp
        · right
          refine ⟨doc, env.commitTime FileId.efoOwlId, ?_⟩
          rw [h4, get_set]
          simp
        · rcases h5 with h5 | h5
          · rw [h5, get_set]
            simp
          · exact Or.inr h5
      · have hstep : writeFileStep env FileId.efoOwlId (Content.rawEfoC doc) fs
            = (fs, Outcome.panicked,
               [Ev.tempCreate FileId.efoOwlId, Ev.tempRemove FileId.efoOwlId]) := by
          unfold writeFileStep
          rw [if_neg hw]
        dsimp only
        rw [hstep]
        exact ⟨rfl, rfl, rfl, Or.inl rfl, Or.inl rfl⟩

theorem gwasStage_spec (env : Env) (fs : CacheFS) (localF : Bool) (force : ℕ) :
    ((gwasStage env fs localF force).1).get FileId.metadataId = fs.get FileId.metadataId ∧
    ((gwasStage env fs localF force).1).get FileId.efoArchiveId = fs.get FileId.efoArchiveId ∧
    ((gwasStage env fs localF force).1).get FileId.efoOwlId = fs.get FileId.efoOwlId ∧
    (((gwasStage env fs localF force).1).get FileId.assocTsvId = fs.get FileId.assocTsvId ∨
      ∃ d t, ((gwasStage env fs localF force).1).get FileId.assocTsvId
        = some ⟨Content.rawGwasC d, t⟩) ∧
    (((gwasStage env fs localF force).1).get FileId.assocArchiveId
        = fs.get FileId.assocArchiveId ∨
      ∃ l t, ((gwasStage env fs localF force).1).get FileId.assocArchiveId
        = some ⟨Content.assocArchiveC l, t⟩) := by
  unfold gwasStage
  split
  · split
    · exact ⟨rfl, rfl, rfl, Or.inl rfl, Or.inl rfl⟩
    · split
      · rcases writeGwasFile_spec env fs localF with ⟨h1, h2, h3, h4, h5⟩
        exact ⟨h1, h2, h3, h4, h5⟩
      · exact ⟨rfl, rfl, rfl, Or.inl rfl, Or.inl rfl⟩
  · exact writeGwasFile_spec env fs false

theorem efoStage_spec (env : Env) (fs : CacheFS) (localF : Bool) (force : ℕ) :
    ((efoStage env fs localF force).1).get FileId.metadataId = fs.get FileId.metadataId ∧
    ((efoStage env fs localF force).1).get FileId.assocArchiveId
      = fs.get FileId.assocArchiveId ∧
    ((efoStage env fs localF force).1).get FileId.assocTsvId = fs.get FileId.assocTsvId ∧
    (((efoStage env fs localF force).1).get FileId.efoOwlId = fs.get FileId.efoOwlId ∨
      ∃ d t, ((efoStage env fs localF force).1).get FileId.efoOwlId
        = some ⟨Content.rawEfoC d, t⟩) ∧
    (((efoStage env fs localF force).1).get FileId.efoArchiveId = fs.get FileId.efoArchiveId ∨
      ∃ l t, ((efoStage env fs localF force).1).get FileId.efoArchiveId
        = some ⟨Content.efoArchiveC l, t⟩) := by
  unfold efoStage
  split
  · split
    · exact ⟨rfl, rfl, rfl, Or.inl rfl, Or.inl rfl⟩
    · split
      · exact writeEfoFile_spec env fs localF
      · exact ⟨rfl, rfl, rfl, Or.inl rfl, Or.inl rfl⟩
  · exact writeEfoFile_spec env fs false

theorem metaStage_spec (env : Env) (fs : CacheFS) :
    (∀ fid, fid ≠ FileId.metadataId →
      ((metaStage env fs).1).get fid = fs.get fid) ∧
    ((metaStage env fs).2.1 = Outcome.panicked ↔ env.metaWriteOk = false) := by
  unfold metaStage
  by_cases h : env.metaWriteOk = true
  · rw [if_pos h]
    constructor
    · intro fid hf
      rw [get_set, if_neg hf]
    · simp [h]
  · rw [if_neg h]
    constructor
    · intro fid hf
      rw [get_set, if_neg hf]
    · simp
      simpa using h

theorem refreshBody_panic_spec (env : Env) (fs : CacheFS) (localF : Bool) (force : ℕ)
    (hpanic : (refreshBody env fs localF force).2.1 = Outcome.panicked) :
    (((refreshBody env fs localF force).1).get FileId.assocArchiveId
        = fs.get FileId.assocArchiveId ∨
      ∃ l t, ((refreshBody env fs localF force).1).get FileId.assocArchiveId
        = some ⟨Content.assocArchiveC l, t⟩) ∧
    (((refreshBody env fs localF force).1).get FileId.efoArchiveId
        = fs.get FileId.efoArchiveId ∨
      ∃ l t, ((refreshBody env fs localF force).1).get FileId.efoArchiveId
        = some ⟨Content.efoArchiveC l, t⟩) ∧
    (((refreshBody env fs localF force).1).get FileId.assocTsvId = fs.get FileId.assocTsvId ∨
      ∃ d t, ((refreshBody env fs localF force).1).get FileId.assocTsvId
        = some ⟨Content.rawGwasC d, t⟩) ∧
    (((refreshBody env fs localF force).1).get FileId.efoOwlId = fs.get FileId.efoOwlId ∨
      ∃ d t, ((refreshBody env fs localF force).1).get FileId.efoOwlId
        = some ⟨Content.rawEfoC d, t⟩) ∧
    (env.metaWriteOk = true →
      ((refreshBody env fs localF force).1).get FileId.metadataId
        = fs.get FileId.metadataId) := by
  rcases hg : gwasStage env fs localF force with ⟨fs1, o1, t1⟩
  rcases gwasStage_spec env fs localF force with ⟨hg1, hg2, hg3, hg4, hg5⟩
  rw [hg] at hg1 hg2 hg3 hg4 hg5
  dsimp only at hg1 hg2 hg3 hg4 hg5
  cases o1 with
  | panicked =>
    have hred : refreshBody env fs localF force = (fs1, Outcome.panicked, t1) := by
      unfold refreshBody
      rw [hg]
    rw [hred]
    dsimp only
    exact ⟨hg5, Or.inl hg2, hg4, Or.inl hg3, fun _ => hg1⟩
  | success =>
    rcases he : efoStage env fs1 localF force with ⟨fs2, o2, t2⟩
    rcases efoStage_spec env fs1 localF force with ⟨he1, he2, he3, he4, he5⟩
    rw [he] at he1 he2 he3 he4 he5
    dsimp only at he1 he2 he3 he4 he5
    have haa2 : fs2.get FileId.assocArchiveId = fs.get FileId.assocArchiveId ∨
        ∃ l t, fs2.get FileId.assocArchiveId = some ⟨Content.assocArchiveC l, t⟩ := by
      rw [he2]
      exact hg5
    have hea2 : fs2.get FileId.efoArchiveId = fs.get FileId.efoArchiveId ∨
        ∃ l t, fs2.get FileId.efoArchiveId = some ⟨Content.efoArchiveC l, t⟩ := by
      rcases he5 with h | h
      · rw [h, hg2]
        exact Or.inl rfl
      · exact Or.inr h
    have htsv2 : fs2.get FileId.assocTsvId = fs.get FileId.assocTsvId ∨
        ∃ d t, fs2.get FileId.assocTsvId = some ⟨Content.rawGwasC d, t⟩ := by
      rw [he3]
      exact hg4
    have howl2 : fs2.get FileId.efoOwlId = fs.get FileId.efoOwlId ∨
        ∃ d t, fs2.get FileId.efoOwlId = some ⟨Content.rawEfoC d, t⟩ := by
      rcases he4 with h | h
      · rw [h, hg3]
        exact Or.inl rfl
      · exact Or.inr h
    have hmd2 : fs2.get FileId.metadataId = fs.get FileId.metadataId := by
      rw [he1, hg1]
    cases o2 with
    | panicked =>
      have hred : refreshBody env fs localF force = (fs2, Outcome.panicked, t1 ++ t2) := by
        unfold refreshBody
        rw [hg]
        dsimp only
        rw [he]
      rw [hred]
      dsimp only
      exact ⟨haa2, hea2, htsv2, howl2, fun _ => hmd2⟩
    | success =>
      rcases hm : metaStage env fs2 with ⟨fs3, o3, t3⟩
      rcases metaStage_spec env fs2 with ⟨hmf, hmo⟩
      rw [hm] at hmf hmo
      dsimp only at hmf hmo
      have hred : refreshBody env fs localF force = (fs3, o3, t1 ++ (t2 ++ t3)) := by
        unfold refreshBody
        rw [hg]
        dsimp only
        rw [he]
        dsimp only
        rw [hm]
      rw [hred] at hpanic ⊢
      dsimp only at hpanic ⊢
      have hmw : env.metaWriteOk = false := hmo.mp hpanic
      refine ⟨?_, ?_, ?_, ?_, ?_⟩
      · rw [hmf FileId.assocArchiveId (by simp)]
        exact haa2
      · rw [hmf FileId.efoArchiveId (by simp)]
        exact hea2
      · rw [hmf FileId.assocTsvId (by simp)]
        exact htsv2
      · rw [hmf FileId.efoOwlId (by simp)]
        exact howl2
      · intro hmt
        rw [hmw] at hmt
        exact absurd hmt (by simp)

theorem cpOk_chunkCommit (f : FileId) (hf : f ≠ FileId.metadataId) (t : List Ev) :
    commitPolicyOk (Ev.tempCreate f :: Ev.renameCommit f :: t) = commitPolicyOk t := by
  simp [commitPolicyOk, hf]

theorem cpOk_chunkRemove (f : FileId) (hf : f ≠ FileId.metadataId) (t : List Ev) :
    commitPolicyOk (Ev.tempCreate f :: Ev.tempRemove f :: t) = commitPolicyOk t := by
  simp [commitPolicyOk, hf]

theorem writeFileStep_trace_cpOk (env : Env) (fid : FileId) (c : Content) (fs : CacheFS)
    (hf : fid ≠ FileId.metadataId) (t : List Ev) :
    commitPolicyOk ((writeFileStep env fid c fs).2.2 ++ t) = commitPolicyOk t := by
  unfold writeFileStep
  by_cases h : env.tmpWriteOk fid = true
  · rw [if_pos h]
    exact cpOk_chunkCommit fid hf t
  · rw [if_neg h]
    exact cpOk_chunkRemove fid hf t

theorem gwasProcessCommit_trace_cpOk (env : Env) (fs : CacheFS) (doc : Str) (evs : List Ev)
    (hevs : ∀ u, commitPolicyOk (evs ++ u) = commitPolicyOk u) (t : List Ev) :
    commitPolicyOk ((gwasProcessCommit env fs doc evs).2.2 ++ t) = commitPolicyOk t := by
  unfold gwasProcessCommit
  cases h : processGwasDoc doc with
  | error e => exact hevs t
  | ok l =>
    dsimp only
    rw [List.append_assoc, hevs]
    exact writeFileStep_trace_cpOk env FileId.assocArchiveId (Content.assocArchiveC l) fs
      (by simp) t

theorem efoProcessCommit_trace_cpOk (env : Env) (fs : CacheFS) (doc : Str) (evs : List Ev)
    (hevs : ∀ u, commitPolicyOk (evs ++ u) = commitPolicyOk u) (t : List Ev) :
    commitPolicyOk ((efoProcessCommit env fs doc evs).2.2 ++ t) = commitPolicyOk t := by
  unfold efoProcessCommit
  cases hx : env.parseXml doc with
  | none => exact hevs t
  | some nodes =>
    dsimp only
    cases h : processEfoDoc nodes with
    | error e => exact hevs t
    | ok l =>
      dsimp only
      rw [List.append_assoc, hevs]
      exact writeFileStep_trace_cpOk env FileId.efoArchiveId (Content.efoArchiveC l) fs
        (by simp) t

theorem writeGwasFile_trace_cpOk (env : Env) (fs : CacheFS) (localF : Bool) (t : List Ev) :
    commitPolicyOk ((writeGwasFile env fs localF).2.2 ++ t) = commitPolicyOk t := by
  unfold writeGwasFile
  by_cases hl : localF = true
  · rw [if_pos hl]
    split
    · exact gwasProcessCommit_trace_cpOk env fs _ [] (fun u => rfl) t
    · rfl
  · rw [if_neg hl]
    cases hd : env.getGwasDoc with
    | none => rfl
    | some doc =>
      dsimp only
      by_cases hw : env.tmpWriteOk FileId.assocTsvId = true
      · have hstep : writeFileStep env FileId.assocTsvId (Content.rawGwasC doc) fs
            = (fs.set FileId.assocTsvId ⟨Content.rawGwasC doc, env.commitTime FileId.assocTsvId⟩,
               Outcome.success, [Ev.tempCreate FileId.assocTsvId, Ev.renameCommit FileId.assocTsvId]) := by
          unfold writeFileStep
          rw [if_pos hw]
        rw [hstep]
        dsimp only
        refine gwasProcessCommit_trace_cpOk env _ doc _ ?_ t
        intro u
        exact cpOk_chunkCommit FileId.assocTsvId (by simp) u
      · have hstep : writeFileStep env FileId.assocTsvId (Content.rawGwasC doc) fs
            = (fs, Outcome.panicked,
               [Ev.tempCreate FileId.assocTsvId, Ev.tempRemove FileId.assocTsvId]) := by
          unfold writeFileStep
          rw [if_neg hw]
        rw [hstep]
        dsimp only
        exact cpOk_chunkRemove FileId.assocTsvId (by simp) t

theorem writeEfoFile_trace_cpOk (env : Env) (fs : CacheFS) (localF : Bool) (t : List Ev) :
    commitPolicyOk ((writeEfoFile env fs localF).2.2 ++ t) = commitPolicyOk t := by
  unfold writeEfoFile
  by_cases hl : localF = true
  · rw [if_pos hl]
    split
    · exact efoProcessCommit_trace_cpOk env fs _ [] (fun u => rfl) t
    · rfl
  · rw [if_neg hl]
    cases hd : env.getEfoDoc with
    | none => rfl
    | some doc =>
      dsimp only
      by_cases hw : env.tmpWriteOk FileId.efoOwlId = true
      · have hstep : writeFileStep env FileId.efoOwlId (Content.rawEfoC doc) fs
            = (fs.set FileId.efoOwlId ⟨Content.rawEfoC doc, env.commitTime FileId.efoOwlId⟩,
               Outcome.success, [Ev.tempCreate FileId.efoOwlId, Ev.renameCommit FileId.efoOwlId]) := by
          unfold writeFileStep
          rw [if_pos hw]
        rw [hstep]
        dsimp only
        refine efoProcessCommit_trace_cpOk env _ doc _ ?_ t
        intro u
        exact cpOk_chunkCommit FileId.efoOwlId (by simp) u
      · have hstep : writeFileStep env FileId.efoOwlId (Content.rawEfoC doc) fs
            = (fs, Outcome.panicked,
               [Ev.tempCreate FileId.efoOwlId, Ev.tempRemove FileId.efoOwlId]) := by
          unfold writeFileStep
          rw [if_neg hw]
        rw [hstep]
        dsimp only
        exact cpOk_chunkRemove FileId.efoOwlId (by simp) t

theorem gwasStage_trace_cpOk (env : Env) (fs : CacheFS) (localF : Bool) (force : ℕ)
    (t : List Ev) :
    commitPolicyOk ((gwasStage env fs localF force).2.2 ++ t) = commitPolicyOk t := by
  unfold gwasStage
  split
  · split
    · rfl
    · split
      · rcases hw : writeGwasFile env fs localF with ⟨fs1, o1, t1⟩
        dsimp only
        have := writeGwasFile_trace_cpOk env fs localF t
        rw [hw] at this
        exact this
      · rfl
  · exact writeGwasFile_trace_cpOk env fs false t

theorem efoStage_trace_cpOk (env : Env) (fs : CacheFS) (localF : Bool) (force : ℕ)
    (t : List Ev) :
    commitPolicyOk ((efoStage env fs localF force).2.2 ++ t) = commitPolicyOk t := by
  unfold efoStage
  split
  · split
    · rfl
    · split
      · rcases hw : writeEfoFile env fs localF with ⟨fs1, o1, t1⟩
        dsimp only
        have := writeEfoFile_trace_cpOk env fs localF t
        rw [hw] at this
        exact this
      · rfl
  · exact writeEfoFile_trace_cpOk env fs false t

theorem metaStage_trace_cpOk (env : Env) (fs : CacheFS) (t : List Ev) :
    commitPolicyOk ((metaStage env fs).2.2 ++ t) = commitPolicyOk t := by
  unfold metaStage
  by_cases h : env.metaWriteOk = true
  · rw [if_pos h]
    rfl
  · rw [if_neg h]
    rfl

theorem refreshBody_trace_cpOk (env : Env) (fs : CacheFS) (localF : Bool) (force : ℕ) :
    commitPolicyOk (refreshBody env fs localF force).2.2 = true := by
  unfold refreshBody
  rcases hg : gwasStage env fs localF force with ⟨fs1, o1, t1⟩
  cases o1 with
  | panicked =>
    dsimp only
    have h := gwasStage_trace_cpOk env fs localF force []
    rw [hg] at h
    dsimp only at h
    rw [List.append_nil] at h
    exact h
  | success =>
    dsimp only
    rcases he : efoStage env fs1 localF force with ⟨fs2, o2, t2⟩
    cases o2 with
    | panicked =>
      dsimp only
      have h1 := gwasStage_trace_cpOk env fs localF force t2
      rw [hg] at h1
      dsimp only at h1
      have h2 := efoStage_trace_cpOk env fs1 localF force []
      rw [he] at h2
      dsimp only at h2
      rw [List.append_nil] at h2
      rw [h1, h2]
      rfl
    | success =>
      rcases hm : metaStage env fs2 with ⟨fs3, o3, t3⟩
      dsimp only
      try rw [hm]
      dsimp only
      have h1 := gwasStage_trace_cpOk env fs localF force (t2 ++ t3)
      rw [hg] at h1
      dsimp only at h1
      have h2 := efoStage_trace_cpOk env fs1 localF force t3
      rw [he] at h2
      dsimp only at h2
      have h3 := metaStage_trace_cpOk env fs2 []
      rw [hm] at h3
      dsimp only at h3
      rw [List.append_nil] at h3
      rw [h1, h2, h3]
      rfl

theorem refreshBody_success_plainWrite (env : Env) (fs : CacheFS) (localF : Bool) (force : ℕ)
    (hs : (refreshBody env fs localF force).2.1 = Outcome.success) :
    Ev.plainWrite FileId.metadataId ∈ (refreshBody env fs localF force).2.2 := by
  unfold refreshBody at hs ⊢
  rcases hg : gwasStage env fs localF force with ⟨fs1, o1, t1⟩
  try simp only [hg] at hs
  try simp only [hg]
  cases o1 with
  | panicked =>
    try dsimp only at hs
    exact Outcome.noConfusion hs
  | success =>
    try dsimp only at hs
    try dsimp only
    rcases he : efoStage env fs1 localF force with ⟨fs2, o2, t2⟩
    try simp only [he] at hs
    try simp only [he]
    cases o2 with
    | panicked =>
      try dsimp only at hs
      exact Outcome.noConfusion hs
    | success =>
      try dsimp only at hs
      try dsimp only
      have ht3 : Ev.plainWrite FileId.metadataId ∈ (metaStage env fs2).2.2 := by
        unfold metaStage
        by_cases h : env.metaWriteOk = true
        · rw [if_pos h]
          simp
        · rw [if_neg h]
          simp
      rcases hm : metaStage env fs2 with ⟨fs3, o3, t3⟩
      try simp only [hm] at ht3
      try simp only [hm]
      try dsimp only at ht3
      try dsimp only
      simp [ht3]

theorem writeGwasFile_local_events (env : Env) (fs : CacheFS) :
    ∀ e ∈ (writeGwasFile env fs true).2.2,
      e = Ev.tempCreate FileId.assocArchiveId ∨ e = Ev.renameCommit FileId.assocArchiveId ∨
        e = Ev.tempRemove FileId.assocArchiveId := by
  unfold writeGwasFile
  rw [if_pos rfl]
  split
  · rename_i doc hdoc
    unfold gwasProcessCommit
    cases h : processGwasDoc _ with
    | error e => simp
    | ok l =>
      dsimp only
      unfold writeFileStep
      by_cases hw : env.tmpWriteOk FileId.assocArchiveId = true
      · rw [if_pos hw]
        intro e he
        simp at he
        rcases he with rfl | rfl
        · exact Or.inl rfl
        · exact Or.inr (Or.inl rfl)
      · rw [if_neg hw]
        intro e he
        simp at he
        rcases he with rfl | rfl
        · exact Or.inl rfl
        · exact Or.inr (Or.inr rfl)
  · simp

theorem writeEfoFile_local_events (env : Env) (fs : CacheFS) :
    ∀ e ∈ (writeEfoFile env fs true).2.2,
      e = Ev.tempCreate FileId.efoArchiveId ∨ e = Ev.renameCommit FileId.efoArchiveId ∨
        e = Ev.tempRemove FileId.efoArchiveId := by
  unfold writeEfoFile
  rw [if_pos rfl]
  split
  · rename_i doc hdoc
    unfold efoProcessCommit
    cases hx : env.parseXml _ with
    | none => simp
    | some nodes =>
      dsimp only
      cases h : processEfoDoc nodes with
      | error e => simp
      | ok l =>
        dsimp only
        unfold writeFileStep
        by_cases hw : env.tmpWriteOk FileId.efoArchiveId = true
        · rw [if_pos hw]
          intro e he
          simp at he
          rcases he with rfl | rfl
          · exact Or.inl rfl
          · exact Or.inr (Or.inl rfl)
        · rw [if_neg hw]
          intro e he
          simp at he
          rcases he with rfl | rfl
          · exact Or.inl rfl
          · exact Or.inr (Or.inr rfl)
  · simp

theorem gwasStage_local_force2 (env : Env) (fs : CacheFS) (fd : FileData) (d : ℤ)
    (hga : fs.get FileId.assocArchiveId = some fd) (hgd : env.headGwasDate = some d) :
    gwasStage env fs true 2
      = ((writeGwasFile env fs true).1, (writeGwasFile env fs true).2.1,
         Ev.headGwas :: (writeGwasFile env fs true).2.2) := by
  unfold gwasStage
  rw [hga, hgd]
  dsimp only
  rw [if_pos (Or.inr rfl)]

theorem efoStage_local_force2 (env : Env) (fs : CacheFS) (fd : FileData) (d : ℤ)
    (hea : fs.get FileId.efoArchiveId = some fd) (hed : env.headEfoDate = some d) :
    efoStage env fs true 2
      = ((writeEfoFile env fs true).1, (writeEfoFile env fs true).2.1,
         Ev.headEfo :: (writeEfoFile env fs true).2.2) := by
  unfold efoStage
  rw [hea, hed]
  dsimp only
  rw [if_pos (Or.inr rfl)]

theorem efoStage_local_no_download (env : Env) (fs : CacheFS) (fd : FileData)
    (hea : fs.get FileId.efoArchiveId = some fd) :
    ∀ e ∈ (efoStage env fs true 2).2.2, e ≠ Ev.getEfo ∧ e ≠ Ev.getGwas := by
  unfold efoStage
  rw [hea]
  dsimp only
  cases hed : env.headEfoDate with
  | none =>
    intro e he
    simp at he
    subst he
    exact ⟨by simp, by simp⟩
  | some d =>
    dsimp only
    rw [if_pos (Or.inr rfl)]
    rcases hw : writeEfoFile env fs true with ⟨fs1, o1, t1⟩
    dsimp only
    intro e he
    rcases List.mem_cons.mp he with rfl | he2
    · exact ⟨by simp, by simp⟩
    · have hev := writeEfoFile_local_events env fs e (by rw [hw]; exact he2)
      rcases hev with rfl | rfl | rfl <;> exact ⟨by simp, by simp⟩

theorem metaStage_events (env : Env) (fs : CacheFS) :
    ∀ e ∈ (metaStage env fs).2.2, e = Ev.plainWrite FileId.metadataId := by
  unfold metaStage
  by_cases h : env.metaWriteOk = true
  · rw [if_pos h]
    intro e he
    simpa using he
  · rw [if_neg h]
    intro e he
    simpa using he

theorem refreshBody_local_trace_events (env : Env) (fs : CacheFS) (fd fd2 : FileData) (d : ℤ)
    (hga : fs.get FileId.assocArchiveId = some fd)
    (hgd : env.headGwasDate = some d)
    (hea : fs.get FileId.efoArchiveId = some fd2) :
    (∀ e ∈ (refreshBody env fs true 2).2.2, e ≠ Ev.getGwas ∧ e ≠ Ev.getEfo) ∧
    Ev.headGwas ∈ (refreshBody env fs true 2).2.2 := by
  unfold refreshBody
  rw [gwasStage_local_force2 env fs fd d hga hgd]
  rcases hw : writeGwasFile env fs true with ⟨fs1, o1, t1⟩
  try rw [hw]
  dsimp only
  have ht1 : ∀ e ∈ t1, e ≠ Ev.getGwas ∧ e ≠ Ev.getEfo := by
    intro e he
    have := writeGwasFile_local_events env fs e (by rw [hw]; exact he)
    rcases this with rfl | rfl | rfl <;> exact ⟨by simp, by simp⟩
  have hea1 : fs1.get FileId.efoArchiveId = some fd2 := by
    have h2 := (writeGwasFile_spec env fs true).2.1
    rw [hw] at h2
    dsimp only at h2
    rw [h2, hea]
  cases o1 with
  | panicked =>
    dsimp only
    constructor
    · intro e he
      rcases List.mem_cons.mp he with rfl | he2
      · exact ⟨by simp, by simp⟩
      · exact ht1 e he2
    · exact List.mem_cons_self _ _
  | success =>
    dsimp only
    have hefo : ∀ e ∈ (efoStage env fs1 true 2).2.2, e ≠ Ev.getEfo ∧ e ≠ Ev.getGwas :=
      efoStage_local_no_download env fs1 fd2 hea1
    rcases he2 : efoStage env fs1 true 2 with ⟨fs2, o2, t2⟩
    try rw [he2] at hefo
    dsimp only at hefo
    cases o2 with
    | panicked =>
      dsimp only
      constructor
      · intro e he
        rcases List.mem_append.mp he with hl | hr
        · rcases List.mem_cons.mp hl with rfl | hl2
          · exact ⟨by simp, by simp⟩
          · exact ht1 e hl2
        · rcases hefo e hr with ⟨hx, hy⟩
          exact ⟨hy, hx⟩
      · exact List.mem_append.mpr (Or.inl (List.mem_cons_self _ _))
    | success =>
      dsimp only
      constructor
      · intro e he
        rcases List.mem_append.mp he with hl | hr
        · rcases List.mem_cons.mp hl with rfl | hl2
          · exact ⟨by simp, by simp⟩
          · exact ht1 e hl2
        · rcases List.mem_append.mp hr with hm | hm
          · rcases hefo e hm with ⟨hx, hy⟩
            exact ⟨hy, hx⟩
          · have := metaStage_events env fs2 e hm
            subst this
            exact ⟨by simp, by simp⟩
      · exact List.mem_append.mpr (Or.inl (List.mem_cons_self _ _))

/-! ## Claim theorems -/

/-- C1, counterexample: a refresh that fails while processing the freshly
downloaded catalog document does not leave the cache directory exactly as
it was: the previously committed raw catalog document has already been
replaced when the failure occurs. -/
theorem refresh_failure_changes_raw_document :
    (checkForUpdates envFail fsFail false 0).2.1 = Outcome.panicked ∧
    (checkForUpdates envFail fsFail false 0).1.get FileId.assocTsvId
      ≠ fsFail.get FileId.assocTsvId := by
  decide

/-- C1, amended: a failing refresh never leaves a partially written cache
file: each processed archive and each raw document is either unchanged or
a complete newly committed value, and the metadata record is unchanged
unless the failure happened inside the final plain metadata write itself. -/
theorem refresh_failure_no_partial_commit (env : Env) (fs : CacheFS) (localF : Bool)
    (force : ℕ)
    (hpanic : (checkForUpdates env fs localF force).2.1 = Outcome.panicked) :
    (((checkForUpdates env fs localF force).1).get FileId.assocArchiveId
        = fs.get FileId.assocArchiveId ∨
      ∃ l t, ((checkForUpdates env fs localF force).1).get FileId.assocArchiveId
        = some ⟨Content.assocArchiveC l, t⟩) ∧
    (((checkForUpdates env fs localF force).1).get FileId.efoArchiveId
        = fs.get FileId.efoArchiveId ∨
      ∃ l t, ((checkForUpdates env fs localF force).1).get FileId.efoArchiveId
        = some ⟨Content.efoArchiveC l, t⟩) ∧
    (((checkForUpdates env fs localF force).1).get FileId.assocTsvId
        = fs.get FileId.assocTsvId ∨
      ∃ d t, ((checkForUpdates env fs localF force).1).get FileId.assocTsvId
        = some ⟨Content.rawGwasC d, t⟩) ∧
    (((checkForUpdates env fs localF force).1).get FileId.efoOwlId
        = fs.get FileId.efoOwlId ∨
      ∃ d t, ((checkForUpdates env fs localF force).1).get FileId.efoOwlId
        = some ⟨Content.rawEfoC d, t⟩) ∧
    (env.metaWriteOk = true →
      ((checkForUpdates env fs localF force).1).get FileId.metadataId
        = fs.get FileId.metadataId) := by
  rcases hfsmd : fs.get FileId.metadataId with _ | ⟨c, mt⟩
  · have hred : checkForUpdates env fs localF force = refreshBody env fs localF force := by
      unfold checkForUpdates
      rw [hfsmd]
    rw [hred] at hpanic ⊢
    have h := refreshBody_panic_spec env fs localF force hpanic
    try rw [hfsmd] at h
    exact h
  · cases c with
    | metaC ts =>
      have hred : checkForUpdates env fs localF force
          = if env.now - ts < 86400 ∧ force = 0 then (fs, Outcome.success, [])
            else refreshBody env fs localF force := by
        unfold checkForUpdates
        rw [hfsmd]
      by_cases hcond : env.now - ts < 86400 ∧ force = 0
      · rw [hred, if_pos hcond] at hpanic
        exact Outcome.noConfusion hpanic
      · rw [hred, if_neg hcond] at hpanic ⊢
        have h := refreshBody_panic_spec env fs localF force hpanic
        try rw [hfsmd] at h
        exact h
    | rawGwasC d0 =>
      have hred : checkForUpdates env fs localF force = (fs, Outcome.panicked, []) := by
        unfold checkForUpdates
        rw [hfsmd]
      rw [hred]
      exact ⟨Or.inl rfl, Or.inl rfl, Or.inl rfl, Or.inl rfl, fun _ => hfsmd⟩
    | rawEfoC d0 =>
      have hred : checkForUpdates env fs localF force = (fs, Outcome.panicked, []) := by
        unfold checkForUpdates
        rw [hfsmd]
      rw [hred]
      exact ⟨Or.inl rfl, Or.inl rfl, Or.inl rfl, Or.inl rfl, fun _ => hfsmd⟩
    | assocArchiveC l0 =>
      have hred : checkForUpdates env fs localF force = (fs, Outcome.panicked, []) := by
        unfold checkForUpdates
        rw [hfsmd]
      rw [hred]
      exact ⟨Or.inl rfl, Or.inl rfl, Or.inl rfl, Or.inl rfl, fun _ => hfsmd⟩
    | efoArchiveC l0 =>
      have hred : checkForUpdates env fs localF force = (fs, Outcome.panicked, []) := by
        unfold checkForUpdates
        rw [hfsmd]
      rw [hred]
      exact ⟨Or.inl rfl, Or.inl rfl, Or.inl rfl, Or.inl rfl, fun _ => hfsmd⟩
    | corruptC =>
      have hred : checkForUpdates env fs localF force = (fs, Outcome.panicked, []) := by
        unfold checkForUpdates
        rw [hfsmd]
      rw [hred]
      exact ⟨Or.inl rfl, Or.inl rfl, Or.inl rfl, Or.inl rfl, fun _ => hfsmd⟩

/-- C1, witness for the amended theorem at the concrete failing run. -/
theorem refresh_failure_no_partial_commit_witness :
    (((checkForUpdates envFail fsFail false 0).1).get FileId.assocArchiveId
        = fsFail.get FileId.assocArchiveId ∨
      ∃ l t, ((checkForUpdates envFail fsFail false 0).1).get FileId.assocArchiveId
        = some ⟨Content.assocArchiveC l, t⟩) ∧
    (((checkForUpdates envFail fsFail false 0).1).get FileId.efoArchiveId
        = fsFail.get FileId.efoArchiveId ∨
      ∃ l t, ((checkForUpdates envFail fsFail false 0).1).get FileId.efoArchiveId
        = some ⟨Content.efoArchiveC l, t⟩) ∧
    (((checkForUpdates envFail fsFail false 0).1).get FileId.assocTsvId
        = fsFail.get FileId.assocTsvId ∨
      ∃ d t, ((checkForUpdates envFail fsFail false 0).1).get FileId.assocTsvId
        = some ⟨Content.rawGwasC d, t⟩) ∧
    (((checkForUpdates envFail fsFail false 0).1).get FileId.efoOwlId
        = fsFail.get FileId.efoOwlId ∨
      ∃ d t, ((checkForUpdates envFail fsFail false 0).1).get FileId.efoOwlId
        = some ⟨Content.rawEfoC d, t⟩) ∧
    (envFail.metaWriteOk = true →
      ((checkForUpdates envFail fsFail false 0).1).get FileId.metadataId
        = fsFail.get FileId.metadataId) :=
  refresh_failure_no_partial_commit envFail fsFail false 0 (by decide)

/-- C2, counterexample: a successful refresh rewrites the metadata record
with a single plain write, never creating or renaming a temporary file for
it, so the metadata commit is not performed by the temp-file-and-rename
discipline the claim states for every on-disk write. -/
theorem metadata_write_not_renamed :
    (checkForUpdates envFresh fsFresh false 0).2.1 = Outcome.success ∧
    (checkForUpdates envFresh fsFresh false 0).1.get FileId.metadataId
      ≠ fsFresh.get FileId.metadataId ∧
    Ev.plainWrite FileId.metadataId ∈ (checkForUpdates envFresh fsFresh false 0).2.2 ∧
    Ev.renameCommit FileId.metadataId ∉ (checkForUpdates envFresh fsFresh false 0).2.2 ∧
    Ev.tempCreate FileId.metadataId ∉ (checkForUpdates envFresh fsFresh false 0).2.2 := by
  decide

/-- C2, amended: the raw documents and the processed archives are committed
by writing a temporary file outside the cache and atomically renaming it
into place, with the temporary file removed on any error before the
rename; the metadata record alone is written by a single plain write,
which every successful refresh body performs. -/
theorem commit_discipline_amended (env : Env) (fs : CacheFS) (localF : Bool) (force : ℕ) :
    commitPolicyOk (checkForUpdates env fs localF force).2.2 = true ∧
    ((refreshBody env fs localF force).2.1 = Outcome.success →
      Ev.plainWrite FileId.metadataId ∈ (refreshBody env fs localF force).2.2) := by
  constructor
  · rcases hfsmd : fs.get FileId.metadataId with _ | ⟨c, mt⟩
    · have hred : checkForUpdates env fs localF force = refreshBody env fs localF force := by
        unfold checkForUpdates
        rw [hfsmd]
      rw [hred]
      exact refreshBody_trace_cpOk env fs localF force
    · cases c with
      | metaC ts =>
        have hred : checkForUpdates env fs localF force
            = if env.now - ts < 86400 ∧ force = 0 then (fs, Outcome.success, [])
              else refreshBody env fs localF force := by
          unfold checkForUpdates
          rw [hfsmd]
        rw [hred]
        by_cases hcond : env.now - ts < 86400 ∧ force = 0
        · rw [if_pos hcond]
          rfl
        · rw [if_neg hcond]
          exact refreshBody_trace_cpOk env fs localF force
      | rawGwasC d0 =>
        have hred : checkForUpdates env fs localF force = (fs, Outcome.panicked, []) := by
          unfold checkForUpdates
          rw [hfsmd]
        rw [hred]
        rfl
      | rawEfoC d0 =>
        have hred : checkForUpdates env fs localF force = (fs, Outcome.panicked, []) := by
          unfold checkForUpdates
          rw [hfsmd]
        rw [hred]
        rfl
      | assocArchiveC l0 =>
        have hred : checkForUpdates env fs localF force = (fs, Outcome.panicked, []) := by
          unfold checkForUpdates
          rw [hfsmd]
        rw [hred]
        rfl
      | efoArchiveC l0 =>
        have hred : checkForUpdates env fs localF force = (fs, Outcome.panicked, []) := by
          unfold checkForUpdates
          rw [hfsmd]
        rw [hred]
        rfl
      | corruptC =>
        have hred : checkForUpdates env fs localF force = (fs, Outcome.panicked, []) := by
          unfold checkForUpdates
          rw [hfsmd]
        rw [hred]
        rfl
  · exact refreshBody_success_plainWrite env fs localF force

/-- C2, witness for the amended theorem at the concrete fresh run. -/
theorem commit_discipline_amended_witness :
    commitPolicyOk (checkForUpdates envFresh fsFresh false 0).2.2 = true ∧
    Ev.plainWrite FileId.metadataId ∈ (refreshBody envFresh fsFresh false 0).2.2 :=
  ⟨(commit_discipline_amended envFresh fsFresh false 0).1,
   (commit_discipline_amended envFresh fsFresh false 0).2 (by decide)⟩

/-- C3, counterexample: a reprocess run with the processed archives already
present still issues the HEAD freshness request for the catalog source, so
the claim that no network calls at all are made for that source fails. -/
theorem reprocess_issues_head_request :
    Ev.headGwas ∈ (updateRun envLocal fsLocal 0 true).2.2 ∧
    Ev.headEfo ∈ (updateRun envLocal fsLocal 0 true).2.2 ∧
    (updateRun envLocal fsLocal 0 true).2.1 = Outcome.success := by
  decide

/-- C3, amended: with the reprocess flag set and both processed archives
present, re-ingestion reads the raw documents from disk and no GET
download is issued for either source, but the remote-freshness HEAD
request for the catalog source is still sent. -/
theorem reprocess_local_reads_local_but_heads (env : Env) (fs : CacheFS) (force : ℕ)
    (fd fd2 : FileData) (d : ℤ)
    (hga : fs.get FileId.assocArchiveId = some fd)
    (hgd : env.headGwasDate = some d)
    (hea : fs.get FileId.efoArchiveId = some fd2)
    (hmd : ∀ fd3, fs.get FileId.metadataId = some fd3 → ∃ ts, fd3.content = Content.metaC ts) :
    Ev.getGwas ∉ (updateRun env fs force true).2.2 ∧
    Ev.getEfo ∉ (updateRun env fs force true).2.2 ∧
    Ev.headGwas ∈ (updateRun env fs force true).2.2 := by
  have hred : updateRun env fs force true = refreshBody env fs true 2 := by
    unfold updateRun checkForUpdates
    rcases hm : fs.get FileId.metadataId with _ | ⟨c, mt⟩
    · simp
    · rcases hmd ⟨c, mt⟩ hm with ⟨ts, hc⟩
      dsimp only at hc
      subst hc
      dsimp only
      rw [if_neg (by simp)]
      simp
  rw [hred]
  rcases refreshBody_local_trace_events env fs fd fd2 d hga hgd hea with ⟨hno, hhead⟩
  refine ⟨?_, ?_, hhead⟩
  · intro hmem
    exact (hno _ hmem).1 rfl
  · intro hmem
    exact (hno _ hmem).2 rfl

/-- C3, witness for the amended theorem at the concrete reprocess run. -/
theorem reprocess_local_reads_local_but_heads_witness :
    Ev.getGwas ∉ (updateRun envLocal fsLocal 0 true).2.2 ∧
    Ev.getEfo ∉ (updateRun envLocal fsLocal 0 true).2.2 ∧
    Ev.headGwas ∈ (updateRun envLocal fsLocal 0 true).2.2 :=
  reprocess_local_reads_local_but_heads envLocal fsLocal 0
    ⟨Content.assocArchiveC [], 0⟩ ⟨Content.efoArchiveC [], 0⟩ 99
    (by decide) (by decide) (by decide) (fun fd3 h => Option.noConfusion h)

/-- C4, code bug: with both the binary and the proteomics files present,
the parallel collection that query_az evaluates holds only the binary
rows, while the sequential Iterator implementation of the same type yields
the concatenation of both files, so the evaluated collection is a strict
subset of the concatenation the spec describes. -/
theorem az_parallel_drops_later_files :
    queryAzRecords (some [Except.ok azB]) (some [Except.ok azP]) none = [azB] ∧
    azCollectSeq (some [Except.ok azB]) (some [Except.ok azP]) none = some [azB, azP] ∧
    ([azB] : List AzAssociation) ≠ [azB, azP] := by
  decide

/-- C5, code bug: the synonym filter keeps only children that both carry
the hasExactSynonym tag and are text nodes, which is impossible, so a
class node with an exact-synonym text child still gets an empty synonym
set. -/
theorem exact_synonym_child_ignored :
    ((childNodes exSynNode).get? 1
        = some (XNode.element OBO_IN_OWL_NS "hasExactSynonym".data [] [XNode.text "ALZ".data]) ∧
      hasTagName (XNode.element OBO_IN_OWL_NS "hasExactSynonym".data [] [XNode.text "ALZ".data])
        OBO_IN_OWL_NS "hasExactSynonym".data = true ∧
      nodeText (XNode.element OBO_IN_OWL_NS "hasExactSynonym".data [] [XNode.text "ALZ".data])
        = some "ALZ".data) ∧
    processEfoNode exSynNode
      = Except.ok (some (7, ⟨7, "ALZHEIMER DISEASE".data, none, ∅, ∅⟩)) := by
  exact ⟨⟨rfl, rfl, rfl⟩, by decide⟩

/-- C6: every emitted Association has sorted trait-id and gene lists, a
blank mapped-gene field emits nothing, and the persisted collection is
globally sorted and free of exact duplicates (for catalog data whose
p-values are numbers, the only data on which the comparison is total). -/
theorem gwas_rows_sorted_dedup :
    (∀ di pi gi ai li line (a : Association),
        parseGwasRow di pi gi ai li line = Except.ok (some a) →
        List.Sorted (· ≤ ·) a.traits ∧ List.Sorted (· ≤ ·) a.mapped_gene) ∧
    (∀ di pi gi ai li line g,
        (splitOnChar '\t' line).get? gi = some g → trimStr g = [] →
        ∀ a : Association, parseGwasRow di pi gi ai li line ≠ Except.ok (some a)) ∧
    (∀ doc assocs l, gwasParsedRows doc = Except.ok assocs →
        processGwasDoc doc = Except.ok l →
        (∀ a ∈ assocs, (a.p_value).isSome = true) →
        l.Pairwise (fun u v => leAssociation u v = true) ∧ l.Nodup) := by
  refine ⟨parseGwasRow_ok_some, parseGwasRow_blank, ?_⟩
  intro doc assocs l h1 h2 h3
  rw [processGwasDoc_eq doc assocs h1] at h2
  injection h2 with h2
  subst h2
  exact sortedDedup_pairwise_nodup assocs h3

/-- C6, witness at two concrete catalog rows and a blank row. -/
theorem gwas_rows_sorted_dedup_witness :
    (List.Sorted (· ≤ ·) aRow1.traits ∧ List.Sorted (· ≤ ·) aRow1.mapped_gene) ∧
    (parseGwasRow 0 1 2 3 4 blankLine ≠ Except.ok (some aRow1)) ∧
    ((dedupAdjacent (insertionSortBy leAssociation [aRow1, aRow2])).Pairwise
        (fun u v => leAssociation u v = true) ∧
      (dedupAdjacent (insertionSortBy leAssociation [aRow1, aRow2])).Nodup) :=
  ⟨gwas_rows_sorted_dedup.1 0 1 2 3 4 rowLine1 aRow1 (by decide),
   gwas_rows_sorted_dedup.2.1 0 1 2 3 4 blankLine [' '] (by decide) (by decide) aRow1,
   gwas_rows_sorted_dedup.2.2 docTwoRows [aRow1, aRow2]
     (dedupAdjacent (insertionSortBy leAssociation [aRow1, aRow2]))
     (by decide) (by decide) (by decide)⟩

/-- C7: after the backfill pass, every keyed node whose parent key is
present in the collection appears in the children set of that parent
entry, and the pass preserves the key set (absent parent keys are ignored
without error). -/
theorem backfill_parent_contains_child (m : List (ℕ × Efo)) (id : ℕ) (efo : Efo) (p : ℕ)
    (hmem : (id, efo) ∈ m) (hpar : efo.parent = some p) :
    (∀ pe, (backfill m).lookup p = some pe → id ∈ pe.children) ∧
    (backfill m).map Prod.fst = m.map Prod.fst := by
  constructor
  · intro pe hpe
    unfold backfill at hpe
    have hkeys : (m.foldl backfillStep m).map Prod.fst = m.map Prod.fst :=
      keys_foldl_backfillStep m m
    have hk : (m.lookup p).isSome = true := by
      rw [lookup_isSome_iff_keys, ← hkeys, ← lookup_isSome_iff_keys]
      simp [hpe]
    exact backfill_foldl_mem m m id efo p hmem hpar hk pe hpe
  · exact keys_foldl_backfillStep m m

/-- C7, witness on the concrete two-node map. -/
theorem backfill_parent_contains_child_witness :
    (1 ∈ (⟨2, "PARENT".data, none, {1}, ∅⟩ : Efo).children) ∧
    (backfill mTwo).map Prod.fst = mTwo.map Prod.fst :=
  ⟨(backfill_parent_contains_child mTwo 1 mChild 2 (by decide) (by decide)).1
      ⟨2, "PARENT".data, none, {1}, ∅⟩ (by decide),
   (backfill_parent_contains_child mTwo 1 mChild 2 (by decide) (by decide)).2⟩

/-- C8: decoding the archival encoding of an Association collection, an
Efo collection or the Metadata record returns the original value, with
element order and count preserved exactly, including empty collections. -/
theorem codec_roundtrip :
    (∀ l : List Association, decodeAssociationList (encodeAssociationList l) = some l) ∧
    (∀ l : List Efo, decodeEfoList (encodeEfoList l) = some l) ∧
    (∀ m : Metadata, decodeMetadata (encodeMetadata m) = some m) :=
  ⟨decodeAssociationList_enc, decodeEfoList_enc, fun _ => rfl⟩

/-- C9: an association passes the significance test exactly when its
p-value is a number strictly below the 5e-8 threshold; at exactly 5e-8 it
is excluded from the query filter, at 4.9e-8 it is included. -/
theorem significance_strict_threshold :
    (∀ (a : Association) (q : FVal), a.p_value = some q →
      (a.isSignificant = true ↔ q.toRat < THRESHOLD.toRat)) ∧
    (∀ a : Association, a.p_value = some ⟨5, 8⟩ →
      ∀ efoId l, a ∉ querySignificant efoId l) ∧
    (aBelowThreshold ∈ querySignificant 10 [aBelowThreshold] ∧
      aAtThreshold ∉ querySignificant 10 [aAtThreshold]) := by
  refine ⟨?_, ?_, by decide, by decide⟩
  · intro a q ha
    unfold Association.isSignificant
    rw [ha]
    dsimp only
    rw [fcmp_eq_compare_toRat]
    simp [compare_lt_iff_lt]
  · intro a ha efoId l hmem
    have hsig : a.isSignificant = false := by
      unfold Association.isSignificant
      rw [ha]
      decide
    rcases List.mem_filter.mp hmem with ⟨_, hpred⟩
    rw [Bool.and_eq_true] at hpred
    rw [hsig] at hpred
    exact Bool.noConfusion hpred.1

/-- C9, witness applying the boundary characterization at the threshold
association. -/
theorem significance_strict_threshold_witness :
    (aAtThreshold.isSignificant = true ↔ (⟨5, 8⟩ : FVal).toRat < THRESHOLD.toRat) ∧
    aAtThreshold ∉ querySignificant 10 [aAtThreshold] :=
  ⟨significance_strict_threshold.1 aAtThreshold ⟨5, 8⟩ rfl,
   significance_strict_threshold.2.1 aAtThreshold rfl 10 [aAtThreshold]⟩

/-- C10: the Association ordering is total only when no p-value is NaN:
two records agreeing on traits whose p-values are both NaN make
partial_cmp return None, so the unwrap inside Ord::cmp panics there and a
sort of such data can abort; with all p-values numeric the comparison is
always defined, and a literal NaN p-value field does parse, reaching the
sort. -/
theorem association_cmp_panics_on_nan :
    (∀ a b : Association, a.traits = b.traits → a.p_value = none → b.p_value = none →
      partialCmpAssociation a b = none) ∧
    (∀ a b : Association, (a.p_value).isSome = true → (b.p_value).isSome = true →
      (partialCmpAssociation a b).isSome = true) ∧
    parsePVal? "NaN".data = some none := by
  refine ⟨?_, ?_, by decide⟩
  · intro a b ht ha hb
    unfold partialCmpAssociation pcmpF64
    rw [compare_eq_iff_eq.mpr ht, ha, hb]
    rfl
  · intro a b ha hb
    rcases Option.isSome_iff_exists.mp ha with ⟨pa, hpa⟩
    rcases Option.isSome_iff_exists.mp hb with ⟨pb, hpb⟩
    rw [partialCmp_eq_keyCmp a b pa pb hpa hpb]
    rfl

/-- C10, witness at the concrete NaN pair. -/
theorem association_cmp_panics_on_nan_witness :
    partialCmpAssociation aNanL aNanR = none :=
  association_cmp_panics_on_nan.1 aNanL aNanR rfl rfl rfl

end SearchGwas
